import Mathlib

/-!
# bitop: a verification development

A shallow embedding of `inc/bitop.h` and `src/bitop.cc` (class `bitop::charPack`),
followed by theorems about the embedded functions.

Conventions of the embedding

* `unsigned char` is `Fin 256`; its arithmetic is done on the underlying natural
  number (the integral promotion to `int`), with an explicit `% 256` wherever the
  source stores a result back into an `unsigned char`.
* `size_t` values (`size()`, `bits()`, `pos`) are natural numbers; the vector is a
  list, so its size is far below the 2^61 bytes at which `size() * 8` would wrap.
  The `int` loop counters of the source are natural numbers as well; the one counter
  that can leave the range of `int`, in the copy loop of the constructor, is embedded
  with its overflow in `copyLoopInt`.
* A bare `throw;` of the source is an error result naming the throw site.
* An access `operator[](i)` outside the stored bytes is undefined behaviour in the
  source; the embedding makes it the explicit result `Error.badIndex`, so that a
  theorem stating a result `ok _` also states that every access was in range.
-/

namespace bitop

/-- The type `unsigned char`. -/
abbrev Byte := Fin 256

/-- `sizeof(unsigned char)`. -/
def sizeofUChar : Nat := 1

/-- The largest value of an `int`, `INT_MAX`. -/
def INT_MAX : Nat := 2 ^ 31 - 1

/-- The ways an operation can fail. The first four are the four `throw;` sites of the
source, in the order constructor, `getBit`, `asInt`, `asFloat_IEEE754` /
`asDouble_IEEE754`. The next two are not results of the source: `badIndex` marks an
`operator[]` outside the vector, `inexact` marks a floating-point operation whose
exact result is not a value of the destination format (rounding is not embedded).
`badAlloc` is the `std::bad_alloc` that the allocation of the vector throws when the
request is not granted, and `intOverflow` marks the overflow of an `int` counter, which
is undefined behaviour in the source. -/
inductive Error
  | invalidLength
  | outOfRange
  | widthOverflow
  | wrongWidth
  | badIndex
  | inexact
  | badAlloc
  | intOverflow
deriving DecidableEq, Repr

deriving instance DecidableEq for Except

/-- The class `charPack : public vector<unsigned char>`: the stored bytes, element 0
first. -/
structure charPack where
  bytes : List Byte
deriving DecidableEq, Repr

namespace charPack

/-- The inherited `size()`. -/
def size (cp : charPack) : Nat := cp.bytes.length

/-- The member `size_t bits() const { return this->size() * 8; }`. -/
def bits (cp : charPack) : Nat := cp.size * 8

/-- The inherited `operator[](i)`; outside the vector it is `Error.badIndex`. -/
def index (cp : charPack) (i : Nat) : Except Error Byte :=
  match cp.bytes[i]? with
  | some b => .ok b
  | none => .error .badIndex

/-- The default constructor `charPack() = default;`. -/
def default : charPack := ⟨[]⟩

/-- The loop `for (int j = 0; j < size(); ++j) this->operator[](j) = cptr[j];` of the
constructor: the vector after the first `n` iterations. -/
def copyLoop (cptr : Nat → Byte) (v : List Byte) : Nat → List Byte
  | 0 => v
  | n + 1 => (copyLoop cptr v n).set n (cptr n)

/-- The constructor `charPack(const void* vptr, size_t bits)`. A pointer is `none`
for `nullptr` and otherwise the memory it points to, `cptr j` being the byte at offset
`j`. The vector is first built with `bits / 8` zero bytes, then the length check and
the null check follow in the order of the source. This is the constructor where the
allocation of the vector succeeds and the `int` counter of the copy loop stays in
range, as for the captures of 8 to 64 bits; `ofPtrOn` embeds both limits and agrees
with it there. -/
def ofPtr (vptr : Option (Nat → Byte)) (bits : Nat) : Except Error charPack :=
  let v : List Byte := List.replicate (bits / (sizeofUChar * 8)) 0
  if bits % (sizeofUChar * 8) ≠ 0 then
    .error .invalidLength
  else
    match vptr with
    | none => .ok ⟨[]⟩
    | some cptr => .ok ⟨copyLoop cptr v v.length⟩

/-- The loop `for (int j = 0; j < size(); ++j) this->operator[](j) = cptr[j];` of the
constructor with its `int` counter: the vector after the first `n` iterations. The
iteration with `j = n` ends with `++j`, which must give a value of `int`; past `INT_MAX`
the increment overflows, and that undefined behaviour is the result
`Error.intOverflow`. -/
def copyLoopInt (cptr : Nat → Byte) (v : List Byte) : Nat → Except Error (List Byte)
  | 0 => .ok v
  | n + 1 => do
    let w ← copyLoopInt cptr v n
    if n + 1 > INT_MAX then .error .intOverflow else .ok (w.set n (cptr n))

/-- The constructor `charPack(const void* vptr, size_t bits)` with the two limits of the
machine. The member initializer `vector<unsigned char>(bits / 8)` runs before the body
and throws `std::bad_alloc` when the allocator does not grant `bits / 8` bytes; `heap`
is the largest request that it grants. The length check and the null test follow, and
the copy loop counts with an `int`. -/
def ofPtrOn (heap : Nat) (vptr : Option (Nat → Byte)) (bits : Nat) :
    Except Error charPack :=
  if bits / (sizeofUChar * 8) > heap then
    .error .badAlloc
  else
    let v : List Byte := List.replicate (bits / (sizeofUChar * 8)) 0
    if bits % (sizeofUChar * 8) ≠ 0 then
      .error .invalidLength
    else
      match vptr with
      | none => .ok ⟨[]⟩
      | some cptr => do
        let w ← copyLoopInt cptr v v.length
        pure ⟨w⟩

/-- The copy constructor `charPack(const charPack& other)`: starts empty and pushes
every element of `other`. -/
def copy (other : charPack) : charPack :=
  ⟨other.bytes.foldl (fun acc el => acc ++ [el]) []⟩

/-- The member `bool getBit(size_t pos) const`. The masked byte is stored in an
`unsigned char` (`% 256`) and converted to `bool` (nonzero). -/
def getBit (cp : charPack) (pos : Nat) : Except Error Bool :=
  if pos ≥ cp.bits then
    .error .outOfRange
  else do
    let arrayPos := pos / 8
    let offset := pos % 8
    let b ← cp.index arrayPos
    let res : Nat := (b.val &&& (1 <<< offset)) % 256
    pure (decide (res ≠ 0))

end charPack

/-! ## Integer types and `asInt` -/

/-- The integer types `int_t` that `asInt` is instantiated with. -/
inductive IntType
  | int8_t | uint8_t | int16_t | uint16_t | int32_t | uint32_t | int64_t | uint64_t
deriving DecidableEq, Repr

namespace IntType

/-- The value of `sizeof(int_t)`. -/
def sizeof : IntType → Nat
  | int8_t | uint8_t => 1
  | int16_t | uint16_t => 2
  | int32_t | uint32_t => 4
  | int64_t | uint64_t => 8

/-- Whether the type is signed. -/
def signed : IntType → Bool
  | int8_t | int16_t | int32_t | int64_t => true
  | uint8_t | uint16_t | uint32_t | uint64_t => false

/-- The width `W = sizeof(int_t) * 8` in bits. -/
def width (T : IntType) : Nat := T.sizeof * 8

/-- Conversion of an integer to `T`: the value of `T` congruent to `x` modulo `2^W`
(unsigned: in `[0, 2^W)`, signed: in `[-2^(W-1), 2^(W-1))`). -/
def wrap (T : IntType) (x : Int) : Int :=
  let m : Int := 2 ^ T.width
  if T.signed then (x + m / 2) % m - m / 2 else x % m

/-- The type in which `(res << 8) + byte` is evaluated: types narrower than `int` are
promoted to `int`, the others are kept (the byte operand, promoted to `int`, is then
converted to them). -/
def promoted (T : IntType) : IntType :=
  if T.sizeof < 4 then int32_t else T

/-- The values of `T`. -/
def inRange (T : IntType) (v : Int) : Prop :=
  if T.signed then -(2 ^ (T.width - 1)) ≤ v ∧ v < 2 ^ (T.width - 1)
  else 0 ≤ v ∧ v < 2 ^ T.width

instance (T : IntType) (v : Int) : Decidable (T.inRange v) := by
  unfold inRange; exact inferInstance

/-- The value of `T` with bit pattern `p < 2^W`: `p` itself, or `p - 2^W` when `T` is
signed and the top bit of `p` is set (twos complement). -/
def ofPattern (T : IntType) (p : Nat) : Int :=
  if T.signed ∧ 2 ^ (T.width - 1) ≤ p then (p : Int) - 2 ^ T.width else (p : Int)

/-- The bit pattern of a value of `T`: the natural number below `2^W` congruent to
it. -/
def pattern (T : IntType) (v : Int) : Nat := (v % 2 ^ T.width).toNat

end IntType

namespace charPack

/-- One iteration `res = (res << 8) + this->operator[](i);` of `asInt`. The shift is
`res * 2^8` reduced into the promoted type, the sum is formed in the promoted type and
the assignment converts it to `int_t`. -/
def asIntStep (T : IntType) (res : Int) (b : Byte) : Int :=
  let P := T.promoted
  T.wrap (P.wrap (P.wrap (res * 2 ^ 8) + (b.val : Int)))

/-- The loop `for (int i = size() - 1; i >= 0; --i)` of `asInt`, with `n = i + 1`
iterations left to run and the accumulator `res`. -/
def asIntLoop (T : IntType) (cp : charPack) : Nat → Int → Except Error Int
  | 0, res => .ok res
  | n + 1, res => do
    let b ← cp.index n
    asIntLoop T cp n (asIntStep T res b)

/-- The member template `int_t asInt() const`. -/
def asInt (T : IntType) (cp : charPack) : Except Error Int :=
  if cp.bits > T.sizeof * 8 then
    .error .widthOverflow
  else
    asIntLoop T cp cp.size 0

end charPack

/-- The object representation, on a little-endian machine, of an object whose bit
pattern is `p`: the memory holding byte `j` of `p` at offset `j`, lowest byte first. -/
def objectBytes (p : Nat) : Nat → Byte :=
  fun j => ⟨p / 256 ^ j % 256, Nat.mod_lt _ (by decide)⟩

namespace charPack

/-- The constructor template `charPack(T object) : charPack(&object, sizeof(T) * 8)`
for an integer object `v` of type `T`. -/
def ofObject (T : IntType) (v : Int) : Except Error charPack :=
  ofPtr (some (objectBytes (T.pattern v))) (T.sizeof * 8)

end charPack

/-- The function template `test_int_conversion(int_t val)`: captures the bytes of
`val` and compares what `asInt<int_t>` returns with `val`. -/
def test_int_conversion (T : IntType) (val : Int) : Except Error Bool := do
  let cp ← charPack.ofPtr (some (objectBytes (T.pattern val))) (T.sizeof * 8)
  let r ← cp.asInt T
  pure (decide (r = val))

/-! ## Floating-point values

The decoders compute with `float` and `double`. Their values are embedded as exact
rationals with a sign, next to the infinities and NaN. An arithmetic operation returns
the exact result when that result is a value of the destination format, an infinity
when it is at or beyond the overflow threshold (which is where round-to-nearest
overflows), and `Error.inexact` in every other case: rounding itself is not embedded.
A theorem that states a result `ok _` therefore also states that no operation on the
way had to round. -/

/-- A floating-point value: a finite number of sign `neg` and magnitude `mag`
(`finite true 0` is `-0.0`), an infinity of sign `neg`, or a NaN of sign bit `neg`
(the payload and the quiet bit of a NaN are left out). -/
inductive FloatVal
  | finite (neg : Bool) (mag : ℚ)
  | inf (neg : Bool)
  | nan (neg : Bool)
deriving DecidableEq, Repr

/-- The sign bit of a floating-point value: of a finite number (zero included), of an
infinity and of a NaN. -/
def FloatVal.signBit : FloatVal → Bool
  | .finite s _ => s
  | .inf s => s
  | .nan s => s

/-- A binary floating-point format: `prec` significand bits (the implicit one
included), `emin` the exponent of its smallest positive value, `ulps` the number of
exponents `emin, emin + 1, ...` that a unit in the last place can take. -/
structure FloatFormat where
  prec : Nat
  emin : Int
  ulps : Nat

/-- The format of `float` (IEEE 754 binary32). -/
def binary32 : FloatFormat := ⟨24, -149, 254⟩

/-- The format of `double` (IEEE 754 binary64). -/
def binary64 : FloatFormat := ⟨53, -1074, 2046⟩

/-- The power `2^e` of an integer exponent, as a rational. -/
def twoPow (e : Int) : ℚ :=
  if 0 ≤ e then ((2 ^ e.toNat : Nat) : ℚ) else 1 / ((2 ^ (-e).toNat : Nat) : ℚ)

namespace FloatFormat

/-- Whether the magnitude `q` is a finite value of the format: `q = k * 2^(emin + t)`
for a natural number `k < 2^prec` and some `t < ulps`. -/
def representable (f : FloatFormat) (q : ℚ) : Bool :=
  (List.range f.ulps).any fun t =>
    let k : ℚ := q / twoPow (f.emin + (t : Int))
    decide (k.den = 1 ∧ 0 ≤ k.num ∧ k.num < 2 ^ f.prec)

/-- The overflow threshold `2^(emax + 1)`: `2^128` for binary32, `2^1024` for
binary64. -/
def overflow (f : FloatFormat) : ℚ :=
  twoPow (f.emin + (f.ulps : Int) - 1 + (f.prec : Int))

/-- The value of the format for an exact result of sign `neg` and magnitude `q`. -/
def round (f : FloatFormat) (neg : Bool) (q : ℚ) : Except Error FloatVal :=
  if f.overflow ≤ q then .ok (.inf neg)
  else if f.representable q then .ok (.finite neg q)
  else .error .inexact

/-- Conversion of a floating-point value to the format (`float` to `double`, and
`double` to `float` on assignment). -/
def convert (f : FloatFormat) : FloatVal → Except Error FloatVal
  | .finite neg q => f.round neg q
  | .inf neg => .ok (.inf neg)
  | .nan neg => .ok (.nan neg)

/-- The signed rational denoted by a sign and a magnitude. -/
def signedValue (neg : Bool) (q : ℚ) : ℚ := if neg then -q else q

/-- The sum `a + b` in the format. An exact zero sum is `+0` unless both operands are
negative. A NaN operand is returned with its sign; the invalid sum of two opposite
infinities is the default NaN, whose sign bit is set on x86-64. -/
def add (f : FloatFormat) : FloatVal → FloatVal → Except Error FloatVal
  | .nan s, _ => .ok (.nan s)
  | _, .nan t => .ok (.nan t)
  | .inf s, .inf t => if s = t then .ok (.inf s) else .ok (.nan true)
  | .inf s, .finite _ _ => .ok (.inf s)
  | .finite _ _, .inf t => .ok (.inf t)
  | .finite s x, .finite t y =>
    let z : ℚ := signedValue s x + signedValue t y
    if z = 0 then .ok (.finite (s && t) 0)
    else f.round (decide (z < 0)) |z|

/-- The product `a * b` in the format. The sign of a product is the exclusive or of the
operand signs, also when an operand is a NaN: the built decoders return a NaN of the
opposite sign for `res *= (-1.)`. The invalid product of an infinity and a zero is the
default NaN, whose sign bit is set on x86-64. -/
def mul (f : FloatFormat) : FloatVal → FloatVal → Except Error FloatVal
  | .nan s, b => .ok (.nan (xor s b.signBit))
  | a, .nan t => .ok (.nan (xor a.signBit t))
  | .inf s, .inf t => .ok (.inf (xor s t))
  | .inf s, .finite t y => if y = 0 then .ok (.nan true) else .ok (.inf (xor s t))
  | .finite s x, .inf t => if x = 0 then .ok (.nan true) else .ok (.inf (xor s t))
  | .finite s x, .finite t y => f.round (xor s t) (x * y)

end FloatFormat

/-- The library call `pow(2, e)` with an `int` exponent: the `double` nearest to
`2^e`, which is `2^e` itself inside the range of `double` and `+inf` above it. -/
def pow2 (e : Int) : Except Error FloatVal := binary64.round false (twoPow e)

/-- The statement `res += pow(2, e);` for `float res`: `res` is converted to
`double`, the sum is formed in `double` and converted back to `float`. -/
def accFloat (res : FloatVal) (e : Int) : Except Error FloatVal := do
  let d ← pow2 e
  let wide ← binary64.convert res
  let sum ← binary64.add wide d
  binary32.convert sum

/-- The statement `res += pow(2, e);` for `double res`. -/
def accDouble (res : FloatVal) (e : Int) : Except Error FloatVal := do
  let d ← pow2 e
  binary64.add res d

/-- The statement `res *= (-1.);` for `float res`: the product is formed in `double`
and converted back to `float`. -/
def negFloat (res : FloatVal) : Except Error FloatVal := do
  let wide ← binary64.convert res
  let prod ← binary64.mul wide (.finite true 1)
  binary32.convert prod

/-- The statement `res *= (-1.);` for `double res`. -/
def negDouble (res : FloatVal) : Except Error FloatVal :=
  binary64.mul res (.finite true 1)

namespace charPack

/-- The mantissa loop of both decoders,
`for (int i = 0; i < N; ++i) { if (getBit(i)) { res += pow(2, i + divExp); ++counter; } }`:
the pair `(res, counter)` after the first `n` iterations, started from `st`. The
argument `acc` is the statement `res += pow(2, e)` at the type of `res`. -/
def mantissaLoop (acc : FloatVal → Int → Except Error FloatVal) (cp : charPack)
    (divExp : Int) (st : FloatVal × Nat) : Nat → Except Error (FloatVal × Nat)
  | 0 => .ok st
  | n + 1 => do
    let (res, counter) ← mantissaLoop acc cp divExp st n
    if (← cp.getBit n) then
      let res ← acc res ((n : Int) + divExp)
      pure (res, counter + 1)
    else
      pure (res, counter)

/-- The member `float asFloat_IEEE754() const`. -/
def asFloat_IEEE754 (cp : charPack) : Except Error FloatVal :=
  if cp.bits ≠ 32 then
    .error .wrongWidth
  else do
    let res : FloatVal := .finite false 0
    -- the exponent field
    let top ← cp.index (cp.size - 1)
    let expBits : Nat := (top.val <<< 1) % 256
    let next ← cp.index (cp.size - 2)
    let expBits : Nat := (expBits + (if next.val &&& 128 ≠ 0 then 1 else 0)) % 256
    let E : Int := expBits
    -- the exponent and the leading term
    let (exp, res) ← (if E = 0 then pure ((-126 : Int), res)
      else do
        let d ← pow2 (E - 127)
        let r ← binary32.convert d
        pure (E - 127, r) : Except Error (Int × FloatVal))
    -- the mantissa
    let divExp : Int := exp - 23
    let (res, counter) ← mantissaLoop accFloat cp divExp (res, 0) 23
    -- special values
    let res : FloatVal :=
      if counter = 0 ∧ E = 0 then .finite false 0
      else if E = 255 ∧ counter = 0 then .inf false
      else if E = 255 then .nan false
      else res
    -- the sign
    if (← cp.getBit 31) then negFloat res else pure res

/-- The member `double asDouble_IEEE754() const`. -/
def asDouble_IEEE754 (cp : charPack) : Except Error FloatVal :=
  if cp.bits ≠ 64 then
    .error .wrongWidth
  else do
    let res : FloatVal := .finite false 0
    -- the exponent field
    let E : Int := 0
    let top ← cp.index (cp.size - 1)
    let expBits : Nat := top.val &&& 127
    let E : Int := E + expBits
    let E : Int := E * 2 ^ 4
    let next ← cp.index (cp.size - 2)
    let expBits : Nat := next.val &&& 240
    let expBits : Nat := expBits >>> 4
    let E : Int := E + expBits
    -- the exponent and the leading term
    let (exp, res) ← (if E = 0 then pure ((-1022 : Int), res)
      else do
        let d ← pow2 (E - 1023)
        pure (E - 1023, d) : Except Error (Int × FloatVal))
    -- the mantissa
    let divExp : Int := exp - 52
    let (res, counter) ← mantissaLoop accDouble cp divExp (res, 0) 52
    -- special values
    let res : FloatVal :=
      if counter = 0 ∧ E = 0 then .finite false 0
      else if E = 2047 ∧ counter = 0 then .inf false
      else if E = 2047 then .nan false
      else res
    -- the sign
    if (← cp.getBit 63) then negDouble res else pure res

end charPack

/-- The value that IEEE 754 gives to the binary32 bit pattern `p`: sign bit 31,
exponent field `E` in bits 23..30, mantissa field `M` in bits 0..22. This is the
`float` whose object representation is `p`. -/
def binary32Value (p : Nat) : FloatVal :=
  let neg : Bool := p.testBit 31
  let E : Nat := p / 2 ^ 23 % 2 ^ 8
  let M : Nat := p % 2 ^ 23
  if E = 255 then (if M = 0 then .inf neg else .nan neg)
  else if E = 0 then .finite neg ((M : ℚ) * 2 ^ (-149 : Int))
  else .finite neg (((2 ^ 23 + M : Nat) : ℚ) * 2 ^ ((E : Int) - 150))

/-- The value that IEEE 754 gives to the binary64 bit pattern `p`: sign bit 63,
exponent field `E` in bits 52..62, mantissa field `M` in bits 0..51. This is the
`double` whose object representation is `p`. -/
def binary64Value (p : Nat) : FloatVal :=
  let neg : Bool := p.testBit 63
  let E : Nat := p / 2 ^ 52 % 2 ^ 11
  let M : Nat := p % 2 ^ 52
  if E = 2047 then (if M = 0 then .inf neg else .nan neg)
  else if E = 0 then .finite neg ((M : ℚ) * 2 ^ (-1074 : Int))
  else .finite neg (((2 ^ 52 + M : Nat) : ℚ) * 2 ^ ((E : Int) - 1075))

/-- The comparison `a == b` of two floating-point values: NaN equals nothing, and
`-0.0 == +0.0`. -/
def FloatVal.cmpEq : FloatVal → FloatVal → Bool
  | .finite s x, .finite t y =>
    decide (FloatFormat.signedValue s x = FloatFormat.signedValue t y)
  | .inf s, .inf t => decide (s = t)
  | _, _ => false

/-- The function `test_float_conversion(float val)`, for the `float` with object
representation `p`. -/
def test_float_conversion (p : Nat) : Except Error Bool := do
  let cp ← charPack.ofPtr (some (objectBytes p)) (4 * 8)
  let r ← cp.asFloat_IEEE754
  pure (r.cmpEq (binary32Value p))

/-- The function `test_double_conversion(double val)`, for the `double` with object
representation `p`. -/
def test_double_conversion (p : Nat) : Except Error Bool := do
  let cp ← charPack.ofPtr (some (objectBytes p)) (8 * 8)
  let r ← cp.asDouble_IEEE754
  pure (r.cmpEq (binary64Value p))

/-- The negation `-a` of a floating-point value. -/
def FloatVal.neg : FloatVal → FloatVal
  | .finite s x => .finite (!s) x
  | .inf s => .inf (!s)
  | .nan s => .nan (!s)

/-- The comparison `a < b` of two floating-point values: by signed value, `-inf` below
and `+inf` above every finite value, and false when either is a NaN. -/
def FloatVal.lt : FloatVal → FloatVal → Bool
  | .finite s x, .finite t y =>
    decide (FloatFormat.signedValue s x < FloatFormat.signedValue t y)
  | .finite _ _, .inf t => !t
  | .inf s, .finite _ _ => s
  | .inf s, .inf t => s && !t
  | _, _ => false

/-- The number whose little-endian bytes are `l`, element 0 least significant. -/
def leValue : List Byte → Nat
  | [] => 0
  | b :: l => b.val + 256 * leValue l

/-- The bit pattern that a pack stores: its bytes read as a little-endian number. -/
def charPack.pattern (cp : charPack) : Nat := leValue cp.bytes

/-- The bit at `pos` as a number: 1 when `getBit(pos)` returns true and 0 otherwise. -/
def charPack.bitVal (cp : charPack) (pos : Nat) : Nat :=
  match cp.getBit pos with
  | .ok true => 1
  | _ => 0

/-- The magnitude of the binary32 pattern `p` in units of `2^(-149)`, for an exponent
field `E < 255`: the mantissa field `M` when `E = 0`, and `(2^23 + M) * 2^(E-1)`
otherwise. -/
def binary32Scaled (p : Nat) : Nat :=
  let E : Nat := p / 2 ^ 23 % 2 ^ 8
  let M : Nat := p % 2 ^ 23
  if E = 0 then M else (2 ^ 23 + M) * 2 ^ (E - 1)

/-! ## Objects and references

`operator=` takes its operand by reference, so the target and the source may be the
same object. The objects of a program are kept in a store, by address; a reference is an
address, and two references alias when the addresses are equal. -/

/-- The `charPack` objects of a program, by address. -/
abbrev Store := Nat → charPack

/-- The inherited `clear()` on the object at address `a`. -/
def Store.clear (st : Store) (a : Nat) : Store :=
  Function.update st a ⟨[]⟩

/-- The inherited `push_back(el)` on the object at address `a`. -/
def Store.push_back (st : Store) (a : Nat) (el : Byte) : Store :=
  Function.update st a ⟨(st a).bytes ++ [el]⟩

/-- The member `charPack& operator=(const charPack& other)` called on the object at
address `self`: `this->clear();` runs first, then the loop `for (auto el : other)`
pushes every element that `other` holds at that point. -/
def operatorAssign (st : Store) (self other : Nat) : Store :=
  let cleared := st.clear self
  (cleared other).bytes.foldl (fun s el => s.push_back self el) cleared

/-! ## Lemmas on bits and bytes -/

theorem mask_ne_zero_iff (b k : Nat) (hk : k < 8) :
    ((b &&& (1 <<< k)) % 256 ≠ 0) ↔ b.testBit k = true := by
  rw [Nat.one_shiftLeft, Nat.and_two_pow]
  have h2 : 2 ^ k < 256 := by
    have : 2 ^ k < 2 ^ 8 := Nat.pow_lt_pow_right (by decide) hk
    simpa using this
  have h0 : 0 < 2 ^ k := Nat.two_pow_pos k
  cases hb : b.testBit k
  · simp
  · simp [Nat.mod_eq_of_lt h2]

theorem shift_and_one_iff (b k : Nat) :
    ((b >>> k) &&& 1 = 1) ↔ b.testBit k = true := by
  rw [Nat.and_one_is_mod, Nat.shiftRight_eq_div_pow, Nat.testBit_to_div_mod]
  simp

theorem index_eq_ok {cp : charPack} {i : Nat} {b : Byte} (h : cp.bytes[i]? = some b) :
    cp.index i = .ok b := by
  simp [charPack.index, h]

theorem index_of_lt (cp : charPack) (i : Nat) (h : i < cp.size) :
    ∃ b, cp.bytes[i]? = some b ∧ cp.index i = .ok b := by
  have hl : i < cp.bytes.length := h
  refine ⟨cp.bytes[i], ?_, ?_⟩
  · simp [List.getElem?_eq_getElem hl]
  · simp [charPack.index, List.getElem?_eq_getElem hl]

theorem getBit_of_lt (cp : charPack) (pos : Nat) (h : pos < cp.bits) :
    ∃ b, cp.bytes[pos / 8]? = some b ∧
      cp.getBit pos = .ok (b.val.testBit (pos % 8)) := by
  have hlt : pos / 8 < cp.size := by
    unfold charPack.bits at h; omega
  obtain ⟨b, hb, hi⟩ := index_of_lt cp (pos / 8) hlt
  refine ⟨b, hb, ?_⟩
  have hk : pos % 8 < 8 := Nat.mod_lt _ (by decide)
  have hnot : ¬ pos ≥ cp.bits := by omega
  unfold charPack.getBit
  rw [if_neg hnot]
  simp only [hi, bind, Except.bind, pure, Except.pure]
  congr 1
  have := mask_ne_zero_iff b.val (pos % 8) hk
  cases hb2 : b.val.testBit (pos % 8)
  · simp [hb2] at this; simp [this]
  · simp [hb2] at this; simp [this]

theorem copyLoop_length (cptr : Nat → Byte) (v : List Byte) (n : Nat) :
    (charPack.copyLoop cptr v n).length = v.length := by
  induction n with
  | zero => rfl
  | succ n ih => simp [charPack.copyLoop, ih]

theorem copyLoop_getElem? (cptr : Nat → Byte) (v : List Byte) (n i : Nat) :
    (charPack.copyLoop cptr v n)[i]? =
      if i < n ∧ i < v.length then some (cptr i) else v[i]? := by
  induction n with
  | zero => simp [charPack.copyLoop]
  | succ n ih =>
    simp only [charPack.copyLoop, List.getElem?_set, copyLoop_length, ih]
    by_cases hni : n = i
    · subst hni
      by_cases hl : n < v.length
      · simp [hl]
      · have : v[n]? = none := by simp [List.getElem?_eq_none_iff]; omega
        simp [hl, this]
    · simp only [hni, if_false]
      by_cases h1 : i < n
      · have : i < n + 1 := by omega
        simp [h1, this]
      · have : ¬ i < n + 1 := by omega
        simp [h1, this]

theorem ofPtr_some (cptr : Nat → Byte) (bitLength : Nat) (h : bitLength % 8 = 0) :
    charPack.ofPtr (some cptr) bitLength =
      .ok ⟨charPack.copyLoop cptr (List.replicate (bitLength / 8) 0) (bitLength / 8)⟩ := by
  simp [charPack.ofPtr, sizeofUChar, h]

theorem ofPtr_bytes (cptr : Nat → Byte) (n : Nat) :
    charPack.copyLoop cptr (List.replicate n 0) n = (List.range n).map cptr := by
  apply List.ext_getElem?
  intro i
  rw [copyLoop_getElem?]
  by_cases hi : i < n
  · simp [hi, List.getElem?_range hi]
  · have h1 : (List.replicate n (0 : Byte))[i]? = none := by
      simp [List.getElem?_eq_none_iff]; omega
    have h2 : ((List.range n).map cptr)[i]? = none := by
      simp [List.getElem?_eq_none_iff]; omega
    simp [hi, h1, h2]

/-! ## Lemmas on `asInt` -/

theorem asIntStep_wrap (T : IntType) (acc : Int) (b : Byte) :
    charPack.asIntStep T (T.wrap acc) b = T.wrap (acc * 256 + (b.val : Int)) := by
  cases T <;>
    simp only [charPack.asIntStep, IntType.wrap, IntType.promoted, IntType.width,
      IntType.sizeof, IntType.signed, Nat.reduceMul, Nat.reducePow, Nat.reduceSub,
      Int.reducePow, Int.reduceDiv, Nat.reduceLT, Bool.false_eq_true, if_true, if_false] <;>
    omega

theorem wrap_zero (T : IntType) : T.wrap 0 = 0 := by
  cases T <;> simp [IntType.wrap, IntType.width, IntType.sizeof, IntType.signed]

theorem wrap_natCast (T : IntType) (s : Nat) :
    T.wrap (s : Int) = T.ofPattern (s % 2 ^ T.width) := by
  cases T <;>
    simp only [IntType.wrap, IntType.ofPattern, IntType.width, IntType.sizeof,
      IntType.signed, Nat.reduceMul, Nat.reducePow, Nat.reduceSub, Int.reducePow,
      Int.reduceDiv, Bool.false_eq_true, true_and, false_and, if_true, if_false] <;>
    (try split) <;> omega

theorem asIntLoop_eq (T : IntType) (cp : charPack) (n : Nat) (hn : n ≤ cp.size) (acc : Int) :
    charPack.asIntLoop T cp n (T.wrap acc) =
      .ok (T.wrap (acc * 256 ^ n +
        ((∑ i ∈ Finset.range n, (cp.bytes.getD i 0).val * 256 ^ i : Nat) : Int))) := by
  induction n generalizing acc with
  | zero => simp [charPack.asIntLoop]
  | succ n ih =>
    obtain ⟨b, hb, hi⟩ := index_of_lt cp n (by omega)
    have hd : cp.bytes.getD n 0 = b := by simp [List.getD, hb]
    simp only [charPack.asIntLoop, hi, bind, Except.bind]
    rw [asIntStep_wrap, ih (by omega), Finset.sum_range_succ, hd]
    congr 2
    push_cast
    ring

theorem asInt_eq (T : IntType) (cp : charPack) (h : cp.bits ≤ T.width) :
    cp.asInt T = .ok (T.ofPattern
      ((∑ i ∈ Finset.range cp.size, (cp.bytes.getD i 0).val * 256 ^ i) % 2 ^ T.width)) := by
  have hnot : ¬ cp.bits > T.sizeof * 8 := by
    unfold IntType.width at h; omega
  unfold charPack.asInt
  rw [if_neg hnot]
  have := asIntLoop_eq T cp cp.size (le_refl _) 0
  rw [wrap_zero] at this
  rw [this, ← wrap_natCast]
  simp

theorem sum_objectBytes (p n : Nat) :
    (∑ i ∈ Finset.range n, (objectBytes p i).val * 256 ^ i) = p % 256 ^ n := by
  induction n with
  | zero => simp [Nat.mod_one]
  | succ n ih =>
    rw [Finset.sum_range_succ, ih, Nat.mod_pow_succ]
    simp only [objectBytes]
    ring

theorem getD_map_range (f : Nat → Byte) (n i : Nat) (h : i < n) :
    ((List.range n).map f).getD i 0 = f i := by
  simp [List.getD, List.getElem?_range h]

theorem ofPtr_objectBytes (p n : Nat) :
    charPack.ofPtr (some (objectBytes p)) (n * 8) =
      .ok ⟨(List.range n).map (objectBytes p)⟩ := by
  rw [ofPtr_some _ _ (by omega)]
  have : n * 8 / 8 = n := by omega
  rw [this, ofPtr_bytes]

theorem sum_capture (p n : Nat) :
    (∑ i ∈ Finset.range (charPack.mk ((List.range n).map (objectBytes p))).size,
      (((charPack.mk ((List.range n).map (objectBytes p))).bytes.getD i 0).val * 256 ^ i))
      = p % 256 ^ n := by
  have hs : (charPack.mk ((List.range n).map (objectBytes p))).size = n := by
    simp [charPack.size]
  rw [hs, ← sum_objectBytes]
  apply Finset.sum_congr rfl
  intro i hi
  rw [getD_map_range _ _ _ (Finset.mem_range.mp hi)]

theorem ofPattern_pattern (T : IntType) (v : Int) (hv : T.inRange v) :
    T.ofPattern (T.pattern v % 256 ^ T.sizeof % 2 ^ T.width) = v := by
  cases T <;>
    simp only [IntType.inRange, IntType.ofPattern, IntType.pattern, IntType.width,
      IntType.sizeof, IntType.signed, Nat.reduceMul, Nat.reducePow, Nat.reduceSub,
      Int.reducePow, Bool.false_eq_true, true_and, false_and, if_true, if_false] at hv ⊢ <;>
    (try split) <;> omega

theorem asInt_ofObject (T : IntType) (v : Int) (hv : T.inRange v) :
    (charPack.mk ((List.range T.sizeof).map (objectBytes (T.pattern v)))).asInt T = .ok v := by
  have hb : (charPack.mk ((List.range T.sizeof).map (objectBytes (T.pattern v)))).bits
      ≤ T.width := by
    simp [charPack.bits, charPack.size, IntType.width]
  rw [asInt_eq T _ hb, sum_capture, ofPattern_pattern T v hv]


/-! ## Lemmas on the floating-point operations -/

theorem twoPow_eq (e : Int) : twoPow e = (2 : ℚ) ^ e := by
  unfold twoPow
  split
  · next h =>
    obtain ⟨n, rfl⟩ := Int.eq_ofNat_of_zero_le h
    simp
  · next h =>
    have he : e = -(((-e).toNat : Nat) : Int) := by omega
    conv_rhs => rw [he]
    rw [zpow_neg, zpow_natCast]
    simp

theorem round_exact (f : FloatFormat) (neg : Bool) (K t : Nat)
    (hK : K < 2 ^ f.prec) (ht : t < f.ulps) :
    f.round neg ((K : ℚ) * 2 ^ (f.emin + (t : Int))) =
      .ok (.finite neg ((K : ℚ) * 2 ^ (f.emin + (t : Int)))) := by
  have h2 : (2 : ℚ) ≠ 0 := by norm_num
  have hpos : (0 : ℚ) < 2 ^ (f.emin + (t : Int)) := zpow_pos (by norm_num) _
  have hno : ¬ f.overflow ≤ (K : ℚ) * 2 ^ (f.emin + (t : Int)) := by
    rw [not_le, FloatFormat.overflow, twoPow_eq]
    have hKq : (K : ℚ) < 2 ^ (f.prec : Int) := by
      rw [zpow_natCast]
      exact_mod_cast hK
    have hle : (2 : ℚ) ^ (f.emin + (t : Int)) ≤ 2 ^ (f.emin + (f.ulps : Int) - 1) :=
      zpow_le_zpow_right₀ (by norm_num) (by omega)
    have hsplit : (2 : ℚ) ^ (f.emin + (f.ulps : Int) - 1 + (f.prec : Int)) =
        2 ^ (f.prec : Int) * 2 ^ (f.emin + (f.ulps : Int) - 1) := by
      rw [← zpow_add₀ h2]
      congr 1
      ring
    rw [hsplit]
    calc (K : ℚ) * 2 ^ (f.emin + (t : Int))
        < 2 ^ (f.prec : Int) * 2 ^ (f.emin + (t : Int)) :=
          mul_lt_mul_of_pos_right hKq hpos
      _ ≤ 2 ^ (f.prec : Int) * 2 ^ (f.emin + (f.ulps : Int) - 1) :=
          mul_le_mul_of_nonneg_left hle (le_of_lt (zpow_pos (by norm_num) _))
  have hrep : f.representable ((K : ℚ) * 2 ^ (f.emin + (t : Int))) = true := by
    unfold FloatFormat.representable
    rw [List.any_eq_true]
    refine ⟨t, List.mem_range.mpr ht, ?_⟩
    simp only [twoPow_eq]
    rw [mul_div_cancel_right₀ _ (ne_of_gt hpos)]
    simp only [Rat.den_natCast, Rat.num_natCast, decide_eq_true_eq, true_and]
    refine ⟨Int.natCast_nonneg K, ?_⟩
    exact_mod_cast hK
  unfold FloatFormat.round
  rw [if_neg hno, if_pos hrep]

theorem round_overflow (f : FloatFormat) (neg : Bool) :
    f.round neg ((2 : ℚ) ^ (f.emin + (f.ulps : Int) - 1 + (f.prec : Int))) = .ok (.inf neg) := by
  unfold FloatFormat.round
  rw [if_pos]
  rw [FloatFormat.overflow, twoPow_eq]


theorem round_dyadic (f : FloatFormat) (neg : Bool) (K : Nat) (d : Int)
    (hK : K < 2 ^ f.prec) (hd1 : f.emin ≤ d) (hd2 : d < f.emin + (f.ulps : Int)) :
    f.round neg ((K : ℚ) * 2 ^ d) = .ok (.finite neg ((K : ℚ) * 2 ^ d)) := by
  have hd : d = f.emin + (((d - f.emin).toNat : Nat) : Int) := by omega
  have ht : (d - f.emin).toNat < f.ulps := by omega
  have := round_exact f neg K (d - f.emin).toNat hK ht
  rw [← hd] at this
  exact this

theorem pow2_exact (e : Int) (h1 : -1074 ≤ e) (h2 : e ≤ 1023) :
    pow2 e = .ok (.finite false ((2 : ℚ) ^ e)) := by
  unfold pow2
  rw [twoPow_eq]
  by_cases he : e ≤ 971
  · have := round_dyadic binary64 false 1 e (by decide)
      (by simp only [binary64]; omega) (by simp only [binary64]; omega)
    simpa using this
  · have hn : (e - 971).toNat < 53 := by omega
    have hK : 2 ^ (e - 971).toNat < 2 ^ binary64.prec :=
      Nat.pow_lt_pow_right (by decide) (by simpa [binary64] using hn)
    have := round_dyadic binary64 false (2 ^ (e - 971).toNat) 971 hK
      (by simp only [binary64]; omega) (by simp only [binary64]; omega)
    have hval : (((2 ^ (e - 971).toNat : Nat) : ℚ)) * 2 ^ (971 : Int) = (2 : ℚ) ^ e := by
      have h2 : (2 : ℚ) ≠ 0 := by norm_num
      have he2 : e = (((e - 971).toNat : Nat) : Int) + 971 := by omega
      conv_rhs => rw [he2]
      rw [zpow_add₀ h2, zpow_natCast]
      push_cast
      rfl
    rw [hval] at this
    exact this

theorem pow2_overflow : pow2 1024 = .ok (.inf false) := by
  have := round_overflow binary64 false
  have h : binary64.emin + (binary64.ulps : Int) - 1 + (binary64.prec : Int) = 1024 := by
    decide
  rw [h] at this
  unfold pow2
  rw [twoPow_eq]
  exact this

theorem add_dyadic (f : FloatFormat) (K i : Nat) (d : Int)
    (hK : K + 2 ^ i < 2 ^ f.prec) (hd1 : f.emin ≤ d) (hd2 : d < f.emin + (f.ulps : Int)) :
    f.add (.finite false ((K : ℚ) * 2 ^ d)) (.finite false ((2 : ℚ) ^ ((i : Int) + d))) =
      .ok (.finite false (((K + 2 ^ i : Nat) : ℚ) * 2 ^ d)) := by
  have h2 : (2 : ℚ) ≠ 0 := by norm_num
  have hz : (K : ℚ) * 2 ^ d + (2 : ℚ) ^ ((i : Int) + d) = ((K + 2 ^ i : Nat) : ℚ) * 2 ^ d := by
    rw [zpow_add₀ h2, zpow_natCast]
    push_cast
    ring
  have hpos : (0 : ℚ) < ((K + 2 ^ i : Nat) : ℚ) * 2 ^ d := by
    apply mul_pos
    · have : 0 < K + 2 ^ i := by
        have := Nat.two_pow_pos i
        omega
      exact_mod_cast this
    · exact zpow_pos (by norm_num) _
  simp only [FloatFormat.add, FloatFormat.signedValue, Bool.false_eq_true, if_false, hz]
  rw [if_neg (ne_of_gt hpos), abs_of_pos hpos]
  have hlt : decide (((K + 2 ^ i : Nat) : ℚ) * 2 ^ d < 0) = false := by
    simp only [decide_eq_false_iff_not, not_lt]
    exact le_of_lt hpos
  rw [hlt]
  exact round_dyadic f false (K + 2 ^ i) d hK hd1 hd2

theorem accFloat_finite (K i : Nat) (d : Int) (hK : K + 2 ^ i < 2 ^ 24)
    (hd1 : -149 ≤ d) (hd2 : d ≤ 104) :
    accFloat (.finite false ((K : ℚ) * 2 ^ d)) ((i : Int) + d) =
      .ok (.finite false (((K + 2 ^ i : Nat) : ℚ) * 2 ^ d)) := by
  have hi : i < 24 := by
    by_contra hcon
    have : 2 ^ 24 ≤ 2 ^ i := Nat.pow_le_pow_right (by decide) (by omega)
    omega
  have hK64 : K + 2 ^ i < 2 ^ binary64.prec := by
    simp only [binary64]
    have : (2 : Nat) ^ 24 < 2 ^ 53 := by decide
    omega
  have hK0 : K < 2 ^ binary64.prec := by
    have := Nat.two_pow_pos i
    omega
  have hp := pow2_exact ((i : Int) + d) (by omega) (by omega)
  have hc := round_dyadic binary64 false K d hK0
    (by simp only [binary64]; omega) (by simp only [binary64]; omega)
  have ha := add_dyadic binary64 K i d hK64
    (by simp only [binary64]; omega) (by simp only [binary64]; omega)
  have hr := round_dyadic binary32 false (K + 2 ^ i) d (by simpa [binary32] using hK)
    (by simp only [binary32]; omega) (by simp only [binary32]; omega)
  simp only [accFloat, hp, bind, Except.bind, FloatFormat.convert, hc, ha, hr]

theorem accFloat_inf (e : Int) (h1 : -1074 ≤ e) (h2 : e ≤ 1023) :
    accFloat (.inf false) e = .ok (.inf false) := by
  simp only [accFloat, pow2_exact e h1 h2, bind, Except.bind, FloatFormat.convert,
    FloatFormat.add]

theorem accDouble_finite (K i : Nat) (d : Int) (hi : i < 53) (hK : K + 2 ^ i < 2 ^ 53)
    (hd1 : -1074 ≤ d) (hd2 : d ≤ 971) :
    accDouble (.finite false ((K : ℚ) * 2 ^ d)) ((i : Int) + d) =
      .ok (.finite false (((K + 2 ^ i : Nat) : ℚ) * 2 ^ d)) := by
  have hp := pow2_exact ((i : Int) + d) (by omega) (by omega)
  have ha := add_dyadic binary64 K i d (by simpa [binary64] using hK)
    (by simp only [binary64]; omega) (by simp only [binary64]; omega)
  simp only [accDouble, hp, bind, Except.bind, ha]

theorem accDouble_inf (e : Int) (h1 : -1074 ≤ e) (h2 : e ≤ 1023) :
    accDouble (.inf false) e = .ok (.inf false) := by
  simp only [accDouble, pow2_exact e h1 h2, bind, Except.bind, FloatFormat.add]

theorem negFloat_finite (K : Nat) (d : Int) (hK : K < 2 ^ 24)
    (hd1 : -149 ≤ d) (hd2 : d ≤ 104) :
    negFloat (.finite false ((K : ℚ) * 2 ^ d)) = .ok (.finite true ((K : ℚ) * 2 ^ d)) := by
  have hK0 : K < 2 ^ binary64.prec := by
    simp only [binary64]
    have : (2 : Nat) ^ 24 < 2 ^ 53 := by decide
    omega
  have hc := round_dyadic binary64 false K d hK0
    (by simp only [binary64]; omega) (by simp only [binary64]; omega)
  have hm := round_dyadic binary64 true K d hK0
    (by simp only [binary64]; omega) (by simp only [binary64]; omega)
  have hr := round_dyadic binary32 true K d (by simpa [binary32] using hK)
    (by simp only [binary32]; omega) (by simp only [binary32]; omega)
  simp only [negFloat, bind, Except.bind, FloatFormat.convert, hc, FloatFormat.mul,
    Bool.false_xor, mul_one, hm, hr]

theorem negFloat_inf : negFloat (.inf false) = .ok (.inf true) := by
  simp [negFloat, bind, Except.bind, FloatFormat.convert, FloatFormat.mul]

theorem negDouble_finite (K : Nat) (d : Int) (hK : K < 2 ^ 53)
    (hd1 : -1074 ≤ d) (hd2 : d ≤ 971) :
    negDouble (.finite false ((K : ℚ) * 2 ^ d)) = .ok (.finite true ((K : ℚ) * 2 ^ d)) := by
  have hm := round_dyadic binary64 true K d (by simpa [binary64] using hK)
    (by simp only [binary64]; omega) (by simp only [binary64]; omega)
  simp only [negDouble, FloatFormat.mul, Bool.false_xor, mul_one, hm]

theorem negDouble_inf : negDouble (.inf false) = .ok (.inf true) := by
  simp [negDouble, FloatFormat.mul]


/-! ## Lemmas on captured patterns -/

theorem capture_size (p n : Nat) :
    (charPack.mk ((List.range n).map (objectBytes p))).size = n := by
  simp [charPack.size]

theorem capture_bits (p n : Nat) :
    (charPack.mk ((List.range n).map (objectBytes p))).bits = n * 8 := by
  simp [charPack.bits, charPack.size]

theorem capture_index (p n j : Nat) (hj : j < n) :
    (charPack.mk ((List.range n).map (objectBytes p))).index j = .ok (objectBytes p j) := by
  simp [charPack.index, List.getElem?_range hj]

theorem testBit_objectBytes (p a r : Nat) (hr : r < 8) :
    (objectBytes p a).val.testBit r = p.testBit (8 * a + r) := by
  have h256 : (256 : Nat) ^ a = 2 ^ (8 * a) := by
    rw [pow_mul]; norm_num
  have h8 : (256 : Nat) = 2 ^ 8 := by decide
  simp only [objectBytes, h256]
  rw [h8, Nat.testBit_mod_two_pow, ← Nat.shiftRight_eq_div_pow, Nat.testBit_shiftRight]
  simp [hr]

theorem capture_getBit (p n pos : Nat) (h : pos < n * 8) :
    (charPack.mk ((List.range n).map (objectBytes p))).getBit pos = .ok (p.testBit pos) := by
  have hlt : pos / 8 < n := by omega
  have hr : pos % 8 < 8 := Nat.mod_lt _ (by decide)
  have hnot : ¬ pos ≥ (charPack.mk ((List.range n).map (objectBytes p))).bits := by
    rw [capture_bits]; omega
  unfold charPack.getBit
  rw [if_neg hnot]
  simp only [capture_index p n (pos / 8) hlt, bind, Except.bind, pure, Except.pure]
  congr 1
  have hm := mask_ne_zero_iff (objectBytes p (pos / 8)).val (pos % 8) hr
  rw [testBit_objectBytes p (pos / 8) (pos % 8) hr] at hm
  have hpos : 8 * (pos / 8) + pos % 8 = pos := by omega
  rw [hpos] at hm
  cases hb : p.testBit pos
  · simp [hb] at hm; simp [hm]
  · simp [hb] at hm; simp [hm]

theorem and_128 (b : Nat) : (b &&& 128 ≠ 0) ↔ b / 128 % 2 = 1 := by
  have h := Nat.and_two_pow b 7
  rw [Nat.toNat_testBit] at h
  norm_num at h
  rw [h]
  omega

theorem and_127 (b : Nat) : b &&& 127 = b % 128 := by
  have := Nat.and_pow_two_sub_one_eq_mod b 7
  simpa using this

theorem and_240 (b : Nat) (hb : b < 256) : (b &&& 240) >>> 4 = b / 16 := by
  have h16 : b / 16 = b >>> 4 := by rw [Nat.shiftRight_eq_div_pow]
  rw [h16]
  apply Nat.eq_of_testBit_eq
  intro j
  rw [Nat.testBit_shiftRight, Nat.testBit_and, Nat.testBit_shiftRight]
  by_cases hj : j < 4
  · have : Nat.testBit 240 (4 + j) = true := by
      interval_cases j <;> decide
    simp [this]
  · have : b.testBit (4 + j) = false := by
      apply Nat.testBit_lt_two_pow
      calc b < 2 ^ 8 := hb
        _ ≤ 2 ^ (4 + j) := Nat.pow_le_pow_right (by decide) (by omega)
    simp [this]

/-- The exponent field that `asFloat_IEEE754` assembles from bytes 3 and 2. -/
theorem float_exponent (p : Nat) :
    (((objectBytes p 3).val <<< 1) % 256 +
      (if (objectBytes p 2).val &&& 128 ≠ 0 then 1 else 0)) % 256 = p / 2 ^ 23 % 2 ^ 8 := by
  simp only [objectBytes, Nat.shiftLeft_eq, and_128]
  norm_num
  split <;> omega

/-- The exponent field that `asDouble_IEEE754` assembles from bytes 7 and 6. -/
theorem double_exponent (p : Nat) :
    ((objectBytes p 7).val &&& 127) * 2 ^ 4 + (((objectBytes p 6).val &&& 240) >>> 4) =
      p / 2 ^ 52 % 2 ^ 11 := by
  have hb : (objectBytes p 6).val < 256 := (objectBytes p 6).isLt
  rw [and_127, and_240 _ hb]
  simp only [objectBytes]
  norm_num
  omega


/-! ## Lemmas on the decoders -/

theorem mantissaLoop_finite (acc : FloatVal → Int → Except Error FloatVal) (cp : charPack)
    (p : Nat) (d : Int) (K0 N : Nat)
    (hbit : ∀ i, i < N → cp.getBit i = .ok (p.testBit i))
    (hacc : ∀ i K, i < N → K0 ≤ K → K < K0 + 2 ^ i →
      acc (.finite false ((K : ℚ) * 2 ^ d)) ((i : Int) + d) =
        .ok (.finite false (((K + 2 ^ i : Nat) : ℚ) * 2 ^ d)))
    (n : Nat) (hn : n ≤ N) :
    ∃ c, charPack.mantissaLoop acc cp d (.finite false ((K0 : ℚ) * 2 ^ d), 0) n =
        .ok (.finite false (((K0 + p % 2 ^ n : Nat) : ℚ) * 2 ^ d), c) ∧
      (c = 0 ↔ p % 2 ^ n = 0) := by
  induction n with
  | zero =>
    refine ⟨0, ?_, ?_⟩
    · simp [charPack.mantissaLoop, Nat.mod_one]
    · simp [Nat.mod_one]
  | succ n ih =>
    obtain ⟨c, hc, hz⟩ := ih (by omega)
    have hmod : p % 2 ^ (n + 1) = p % 2 ^ n + 2 ^ n * (p / 2 ^ n % 2) := Nat.mod_pow_succ
    have hlt : p % 2 ^ n < 2 ^ n := Nat.mod_lt _ (Nat.two_pow_pos n)
    have hpos : 0 < 2 ^ n := Nat.two_pow_pos n
    have htb : p.testBit n = decide (p / 2 ^ n % 2 = 1) := Nat.testBit_to_div_mod
    by_cases hb : p / 2 ^ n % 2 = 1
    · have hbt : p.testBit n = true := by rw [htb]; simp [hb]
      have hstep := hacc n (K0 + p % 2 ^ n) (by omega) (by omega) (by omega)
      have hnew : K0 + p % 2 ^ n + 2 ^ n = K0 + p % 2 ^ (n + 1) := by
        rw [hmod, hb]; omega
      refine ⟨c + 1, ?_, ?_⟩
      · simp only [charPack.mantissaLoop, hc, bind, Except.bind, hbit n (by omega), hbt,
          if_true, hstep, pure, Except.pure, hnew]
      · rw [hmod, hb]; omega
    · have hbt : p.testBit n = false := by rw [htb]; simp [hb]
      have h0 : p / 2 ^ n % 2 = 0 := by omega
      have hnew : p % 2 ^ (n + 1) = p % 2 ^ n := by rw [hmod, h0]; omega
      refine ⟨c, ?_, ?_⟩
      · simp only [charPack.mantissaLoop, hc, bind, Except.bind, hbit n (by omega), hbt,
          Bool.false_eq_true, if_false, pure, Except.pure, hnew]
      · rw [hnew]; exact hz

theorem mantissaLoop_inf (acc : FloatVal → Int → Except Error FloatVal) (cp : charPack)
    (p : Nat) (d : Int) (N : Nat)
    (hbit : ∀ i, i < N → cp.getBit i = .ok (p.testBit i))
    (hacc : ∀ i, i < N → acc (.inf false) ((i : Int) + d) = .ok (.inf false))
    (n : Nat) (hn : n ≤ N) :
    ∃ c, charPack.mantissaLoop acc cp d (.inf false, 0) n = .ok (.inf false, c) ∧
      (c = 0 ↔ p % 2 ^ n = 0) := by
  induction n with
  | zero =>
    refine ⟨0, ?_, ?_⟩
    · simp [charPack.mantissaLoop]
    · simp [Nat.mod_one]
  | succ n ih =>
    obtain ⟨c, hc, hz⟩ := ih (by omega)
    have hmod : p % 2 ^ (n + 1) = p % 2 ^ n + 2 ^ n * (p / 2 ^ n % 2) := Nat.mod_pow_succ
    have hpos : 0 < 2 ^ n := Nat.two_pow_pos n
    have htb : p.testBit n = decide (p / 2 ^ n % 2 = 1) := Nat.testBit_to_div_mod
    by_cases hb : p / 2 ^ n % 2 = 1
    · have hbt : p.testBit n = true := by rw [htb]; simp [hb]
      refine ⟨c + 1, ?_, ?_⟩
      · simp only [charPack.mantissaLoop, hc, bind, Except.bind, hbit n (by omega), hbt,
          if_true, hacc n (by omega), pure, Except.pure]
      · rw [hmod, hb]; omega
    · have hbt : p.testBit n = false := by rw [htb]; simp [hb]
      have h0 : p / 2 ^ n % 2 = 0 := by omega
      have hnew : p % 2 ^ (n + 1) = p % 2 ^ n := by rw [hmod, h0]; omega
      refine ⟨c, ?_, ?_⟩
      · simp only [charPack.mantissaLoop, hc, bind, Except.bind, hbit n (by omega), hbt,
          Bool.false_eq_true, if_false, pure, Except.pure]
      · rw [hnew]; exact hz


theorem round32_pow128 (neg : Bool) :
    binary32.round neg ((2 : ℚ) ^ (128 : Int)) = .ok (.inf neg) := by
  have := round_overflow binary32 neg
  have h : binary32.emin + (binary32.ulps : Int) - 1 + (binary32.prec : Int) = 128 := by
    decide
  rw [h] at this
  exact this

theorem negFloat_nan (s : Bool) : negFloat (.nan s) = .ok (.nan (!s)) := by
  simp [negFloat, bind, Except.bind, FloatFormat.convert, FloatFormat.mul, FloatVal.signBit]

theorem negDouble_nan (s : Bool) : negDouble (.nan s) = .ok (.nan (!s)) := by
  simp [negDouble, FloatFormat.mul, FloatVal.signBit]

theorem signFloat_finite (s : Bool) (K : Nat) (d : Int) (hK : K < 2 ^ 24)
    (hd1 : -149 ≤ d) (hd2 : d ≤ 104) :
    (if s = true then negFloat (.finite false ((K : ℚ) * 2 ^ d))
      else (.ok (FloatVal.finite false ((K : ℚ) * 2 ^ d)) : Except Error FloatVal)) =
      .ok (.finite s ((K : ℚ) * 2 ^ d)) := by
  cases s
  · rfl
  · simp only [if_true, negFloat_finite K d hK hd1 hd2]

theorem signFloat_zero (s : Bool) :
    (if s = true then negFloat (.finite false 0)
      else (.ok (FloatVal.finite false 0) : Except Error FloatVal)) =
      .ok (.finite s 0) := by
  have := signFloat_finite s 0 0 (by decide) (by decide) (by decide)
  simpa using this

theorem signFloat_inf (s : Bool) :
    (if s = true then negFloat (.inf false)
      else (.ok (FloatVal.inf false) : Except Error FloatVal)) = .ok (.inf s) := by
  cases s
  · rfl
  · simp only [if_true, negFloat_inf]

theorem signFloat_nan (s : Bool) :
    (if s = true then negFloat (.nan false)
      else (.ok (FloatVal.nan false) : Except Error FloatVal)) = .ok (.nan s) := by
  cases s
  · rfl
  · simp only [if_true, negFloat_nan, Bool.not_false]

theorem floatLoop_subnormal (p : Nat) :
    ∃ c, charPack.mantissaLoop accFloat (charPack.mk ((List.range 4).map (objectBytes p)))
        (-149) (.finite false 0, 0) 23 =
        .ok (.finite false (((p % 2 ^ 23 : Nat) : ℚ) * 2 ^ (-149 : Int)), c) ∧
      (c = 0 ↔ p % 2 ^ 23 = 0) := by
  obtain ⟨c, hc, hz⟩ := mantissaLoop_finite accFloat
    (charPack.mk ((List.range 4).map (objectBytes p))) p (-149) 0 23
    (fun i hi => capture_getBit p 4 i (by omega))
    (fun i K hi _ hK => accFloat_finite K i _ (by
      have : (2 : Nat) ^ i < 2 ^ 23 := Nat.pow_lt_pow_right (by decide) hi
      have : (2 : Nat) ^ 23 < 2 ^ 24 := by decide
      omega) (by omega) (by omega))
    23 (le_refl _)
  refine ⟨c, ?_, hz⟩
  rw [Nat.zero_add] at hc
  rw [← hc]
  simp

theorem floatLoop_normal (p : Nat) (E : Nat) (h1 : 0 < E) (h2 : E < 255) :
    ∃ c, charPack.mantissaLoop accFloat (charPack.mk ((List.range 4).map (objectBytes p)))
        ((E : Int) - 127 - 23) (.finite false ((2 : ℚ) ^ ((E : Int) - 127)), 0) 23 =
        .ok (.finite false (((2 ^ 23 + p % 2 ^ 23 : Nat) : ℚ) * 2 ^ ((E : Int) - 150)), c) ∧
      (c = 0 ↔ p % 2 ^ 23 = 0) := by
  have hd : (E : Int) - 127 - 23 = (E : Int) - 150 := by omega
  have hstart : (2 : ℚ) ^ ((E : Int) - 127) = ((2 ^ 23 : Nat) : ℚ) * 2 ^ ((E : Int) - 150) := by
    have h2 : (2 : ℚ) ≠ 0 := by norm_num
    have he : (E : Int) - 127 = ((23 : Nat) : Int) + ((E : Int) - 150) := by omega
    rw [he, zpow_add₀ h2, zpow_natCast]
    push_cast
    rfl
  obtain ⟨c, hc, hz⟩ := mantissaLoop_finite accFloat
    (charPack.mk ((List.range 4).map (objectBytes p))) p ((E : Int) - 150) (2 ^ 23) 23
    (fun i hi => capture_getBit p 4 i (by omega))
    (fun i K hi _ hK => accFloat_finite K i _ (by
      have : (2 : Nat) ^ i ≤ 2 ^ 22 := Nat.pow_le_pow_right (by decide) (by omega)
      omega) (by omega) (by omega))
    23 (le_refl _)
  refine ⟨c, ?_, hz⟩
  rw [hd, hstart]
  exact hc

theorem floatLoop_special (p : Nat) :
    ∃ c, charPack.mantissaLoop accFloat (charPack.mk ((List.range 4).map (objectBytes p)))
        ((255 : Int) - 127 - 23) (.inf false, 0) 23 = .ok (.inf false, c) ∧
      (c = 0 ↔ p % 2 ^ 23 = 0) :=
  mantissaLoop_inf accFloat (charPack.mk ((List.range 4).map (objectBytes p))) p _ 23
    (fun i hi => capture_getBit p 4 i (by omega))
    (fun i hi => accFloat_inf _ (by omega) (by omega)) 23 (le_refl _)

theorem asFloat_capture (p : Nat) :
    (charPack.mk ((List.range 4).map (objectBytes p))).asFloat_IEEE754 =
      .ok (binary32Value p) := by
  have hE8 : p / 2 ^ 23 % 2 ^ 8 < 256 := Nat.mod_lt _ (by decide)
  have hM : p % 2 ^ 23 < 2 ^ 23 := Nat.mod_lt _ (by decide)
  have h24 : (2 : Nat) ^ 24 = 2 ^ 23 + 2 ^ 23 := by decide
  unfold charPack.asFloat_IEEE754
  rw [if_neg (by rw [capture_bits]; decide)]
  simp only [capture_size, Nat.reduceSub, capture_index p 4 3 (by decide),
    capture_index p 4 2 (by decide), bind, Except.bind, float_exponent,
    capture_getBit p 4 31 (by decide)]
  unfold binary32Value
  by_cases hE0 : p / 2 ^ 23 % 2 ^ 8 = 0
  · -- zero and subnormal numbers
    obtain ⟨c, hc, hz⟩ := floatLoop_subnormal p
    simp only [hE0, Nat.cast_zero, if_true, pure, Except.pure, Int.reduceSub, hc, and_true]
    by_cases hc0 : c = 0
    · have hM0 := hz.mp hc0
      have hs := signFloat_zero (p.testBit 31)
      simp only [hc0, if_true, hM0, Nat.cast_zero, zero_mul]
      rw [hs]
      simp
    · have hs := signFloat_finite (p.testBit 31) (p % 2 ^ 23) (-149) (by omega)
        (by omega) (by omega)
      simp only [hc0, if_false, false_and, and_false]
      simp only [(by decide : ¬ ((0 : Int) = 255)), (by decide : ¬ ((0 : Nat) = 255)),
        if_false]
      rw [hs]
  · by_cases hE255 : p / 2 ^ 23 % 2 ^ 8 = 255
    · -- infinities and NaNs
      obtain ⟨c, hc, hz⟩ := floatLoop_special p
      have hp := pow2_exact ((255 : Int) - 127) (by decide) (by decide)
      have hr : binary32.convert (.finite false ((2 : ℚ) ^ ((255 : Int) - 127))) =
          .ok (.inf false) := round32_pow128 false
      simp only [hE255, Nat.cast_ofNat, (by decide : ¬ ((255 : Int) = 0)), if_false, hp, hr,
        pure, Except.pure, hc, and_false, true_and, if_true]
      by_cases hc0 : c = 0
      · have hM0 := hz.mp hc0
        simp only [hc0, if_true, hM0]
        exact signFloat_inf _
      · have hM0 : ¬ p % 2 ^ 23 = 0 := fun h => hc0 (hz.mpr h)
        simp only [hc0, if_false, hM0]
        exact signFloat_nan _
    · -- normal numbers
      have hE1 : 0 < p / 2 ^ 23 % 2 ^ 8 := by omega
      have hE2 : p / 2 ^ 23 % 2 ^ 8 < 255 := by omega
      obtain ⟨c, hc, hz⟩ := floatLoop_normal p _ hE1 hE2
      have hp := pow2_exact ((p / 2 ^ 23 % 2 ^ 8 : Nat) - 127) (by omega) (by omega)
      have hr : binary32.convert
          (.finite false ((2 : ℚ) ^ (((p / 2 ^ 23 % 2 ^ 8 : Nat) : Int) - 127))) =
          .ok (.finite false ((2 : ℚ) ^ (((p / 2 ^ 23 % 2 ^ 8 : Nat) : Int) - 127))) := by
        have h2 : (2 : ℚ) ≠ 0 := by norm_num
        have he : ((p / 2 ^ 23 % 2 ^ 8 : Nat) : Int) - 127 =
            ((23 : Nat) : Int) + (((p / 2 ^ 23 % 2 ^ 8 : Nat) : Int) - 150) := by omega
        have hval : (2 : ℚ) ^ (((p / 2 ^ 23 % 2 ^ 8 : Nat) : Int) - 127) =
            ((2 ^ 23 : Nat) : ℚ) * 2 ^ (((p / 2 ^ 23 % 2 ^ 8 : Nat) : Int) - 150) := by
          rw [he, zpow_add₀ h2, zpow_natCast]
          push_cast
          congr 2
        rw [hval]
        exact round_dyadic binary32 false (2 ^ 23) _ (by decide)
          (by simp only [binary32]; omega) (by simp only [binary32]; omega)
      have hEz : ¬ (((p / 2 ^ 23 % 2 ^ 8 : Nat) : Int) = 0) := by omega
      have hEf : ¬ (((p / 2 ^ 23 % 2 ^ 8 : Nat) : Int) = 255) := by omega
      have hs := signFloat_finite (p.testBit 31) (2 ^ 23 + p % 2 ^ 23)
        (((p / 2 ^ 23 % 2 ^ 8 : Nat) : Int) - 150) (by omega) (by omega) (by omega)
      simp only [hEz, hEf, hE0, hE255, if_false, hp, hr, pure, Except.pure, hc, and_false,
        false_and]
      exact hs


theorem signDouble_finite (s : Bool) (K : Nat) (d : Int) (hK : K < 2 ^ 53)
    (hd1 : -1074 ≤ d) (hd2 : d ≤ 971) :
    (if s = true then negDouble (.finite false ((K : ℚ) * 2 ^ d))
      else (.ok (FloatVal.finite false ((K : ℚ) * 2 ^ d)) : Except Error FloatVal)) =
      .ok (.finite s ((K : ℚ) * 2 ^ d)) := by
  cases s
  · rfl
  · simp only [if_true, negDouble_finite K d hK hd1 hd2]

theorem signDouble_zero (s : Bool) :
    (if s = true then negDouble (.finite false 0)
      else (.ok (FloatVal.finite false 0) : Except Error FloatVal)) =
      .ok (.finite s 0) := by
  have := signDouble_finite s 0 0 (by decide) (by decide) (by decide)
  simpa using this

theorem signDouble_inf (s : Bool) :
    (if s = true then negDouble (.inf false)
      else (.ok (FloatVal.inf false) : Except Error FloatVal)) = .ok (.inf s) := by
  cases s
  · rfl
  · simp only [if_true, negDouble_inf]

theorem signDouble_nan (s : Bool) :
    (if s = true then negDouble (.nan false)
      else (.ok (FloatVal.nan false) : Except Error FloatVal)) = .ok (.nan s) := by
  cases s
  · rfl
  · simp only [if_true, negDouble_nan, Bool.not_false]

theorem doubleLoop_subnormal (p : Nat) :
    ∃ c, charPack.mantissaLoop accDouble (charPack.mk ((List.range 8).map (objectBytes p)))
        (-1074) (.finite false 0, 0) 52 =
        .ok (.finite false (((p % 2 ^ 52 : Nat) : ℚ) * 2 ^ (-1074 : Int)), c) ∧
      (c = 0 ↔ p % 2 ^ 52 = 0) := by
  obtain ⟨c, hc, hz⟩ := mantissaLoop_finite accDouble
    (charPack.mk ((List.range 8).map (objectBytes p))) p (-1074) 0 52
    (fun i hi => capture_getBit p 8 i (by omega))
    (fun i K hi _ hK => accDouble_finite K i _ (by omega) (by
      have : (2 : Nat) ^ i ≤ 2 ^ 51 := Nat.pow_le_pow_right (by decide) (by omega)
      omega) (by omega) (by omega))
    52 (le_refl _)
  refine ⟨c, ?_, hz⟩
  rw [Nat.zero_add] at hc
  rw [← hc]
  simp

theorem doubleLoop_normal (p : Nat) (E : Nat) (h1 : 0 < E) (h2 : E < 2047) :
    ∃ c, charPack.mantissaLoop accDouble (charPack.mk ((List.range 8).map (objectBytes p)))
        ((E : Int) - 1023 - 52) (.finite false ((2 : ℚ) ^ ((E : Int) - 1023)), 0) 52 =
        .ok (.finite false (((2 ^ 52 + p % 2 ^ 52 : Nat) : ℚ) * 2 ^ ((E : Int) - 1075)), c) ∧
      (c = 0 ↔ p % 2 ^ 52 = 0) := by
  have hd : (E : Int) - 1023 - 52 = (E : Int) - 1075 := by omega
  have hstart : (2 : ℚ) ^ ((E : Int) - 1023) =
      ((2 ^ 52 : Nat) : ℚ) * 2 ^ ((E : Int) - 1075) := by
    have h2 : (2 : ℚ) ≠ 0 := by norm_num
    have he : (E : Int) - 1023 = ((52 : Nat) : Int) + ((E : Int) - 1075) := by omega
    rw [he, zpow_add₀ h2, zpow_natCast]
    push_cast
    rfl
  obtain ⟨c, hc, hz⟩ := mantissaLoop_finite accDouble
    (charPack.mk ((List.range 8).map (objectBytes p))) p ((E : Int) - 1075) (2 ^ 52) 52
    (fun i hi => capture_getBit p 8 i (by omega))
    (fun i K hi _ hK => accDouble_finite K i _ (by omega) (by
      have : (2 : Nat) ^ i ≤ 2 ^ 51 := Nat.pow_le_pow_right (by decide) (by omega)
      omega) (by omega) (by omega))
    52 (le_refl _)
  refine ⟨c, ?_, hz⟩
  rw [hd, hstart]
  exact hc

theorem doubleLoop_special (p : Nat) :
    ∃ c, charPack.mantissaLoop accDouble (charPack.mk ((List.range 8).map (objectBytes p)))
        ((2047 : Int) - 1023 - 52) (.inf false, 0) 52 = .ok (.inf false, c) ∧
      (c = 0 ↔ p % 2 ^ 52 = 0) :=
  mantissaLoop_inf accDouble (charPack.mk ((List.range 8).map (objectBytes p))) p _ 52
    (fun i hi => capture_getBit p 8 i (by omega))
    (fun i hi => accDouble_inf _ (by omega) (by omega)) 52 (le_refl _)

theorem double_exponent_int (p : Nat) :
    ((0 : Int) + (((objectBytes p 7).val &&& 127 : Nat) : Int)) * (2 : Int) ^ 4 +
      ((((objectBytes p 6).val &&& 240) >>> 4 : Nat) : Int) =
      ((p / 2 ^ 52 % 2 ^ 11 : Nat) : Int) := by
  rw [← double_exponent p]
  push_cast
  ring

theorem asDouble_capture (p : Nat) :
    (charPack.mk ((List.range 8).map (objectBytes p))).asDouble_IEEE754 =
      .ok (binary64Value p) := by
  have hE8 : p / 2 ^ 52 % 2 ^ 11 < 2048 := Nat.mod_lt _ (by decide)
  have hM : p % 2 ^ 52 < 2 ^ 52 := Nat.mod_lt _ (by decide)
  unfold charPack.asDouble_IEEE754
  rw [if_neg (by rw [capture_bits]; decide)]
  simp only [capture_size, Nat.reduceSub, capture_index p 8 7 (by decide),
    capture_index p 8 6 (by decide), bind, Except.bind, double_exponent_int,
    capture_getBit p 8 63 (by decide)]
  unfold binary64Value
  by_cases hE0 : p / 2 ^ 52 % 2 ^ 11 = 0
  · -- zero and subnormal numbers
    obtain ⟨c, hc, hz⟩ := doubleLoop_subnormal p
    simp only [hE0, Nat.cast_zero, if_true, pure, Except.pure, Int.reduceSub, hc, and_true]
    by_cases hc0 : c = 0
    · have hM0 := hz.mp hc0
      have hs := signDouble_zero (p.testBit 63)
      simp only [hc0, if_true, hM0, Nat.cast_zero, zero_mul]
      rw [hs]
      simp
    · have hs := signDouble_finite (p.testBit 63) (p % 2 ^ 52) (-1074) (by omega)
        (by omega) (by omega)
      simp only [hc0, if_false, false_and, and_false]
      simp only [(by decide : ¬ ((0 : Int) = 2047)), (by decide : ¬ ((0 : Nat) = 2047)),
        if_false]
      rw [hs]
  · by_cases hE2047 : p / 2 ^ 52 % 2 ^ 11 = 2047
    · -- infinities and NaNs
      obtain ⟨c, hc, hz⟩ := doubleLoop_special p
      have hp : pow2 ((2047 : Int) - 1023) = .ok (.inf false) := pow2_overflow
      simp only [hE2047, Nat.cast_ofNat, (by decide : ¬ ((2047 : Int) = 0)), if_false, hp,
        pure, Except.pure, hc, and_false, true_and, if_true]
      by_cases hc0 : c = 0
      · have hM0 := hz.mp hc0
        simp only [hc0, if_true, hM0]
        exact signDouble_inf _
      · have hM0 : ¬ p % 2 ^ 52 = 0 := fun h => hc0 (hz.mpr h)
        simp only [hc0, if_false, hM0]
        exact signDouble_nan _
    · -- normal numbers
      have hE1 : 0 < p / 2 ^ 52 % 2 ^ 11 := by omega
      have hE2 : p / 2 ^ 52 % 2 ^ 11 < 2047 := by omega
      obtain ⟨c, hc, hz⟩ := doubleLoop_normal p _ hE1 hE2
      have hp := pow2_exact ((p / 2 ^ 52 % 2 ^ 11 : Nat) - 1023) (by omega) (by omega)
      have hEz : ¬ (((p / 2 ^ 52 % 2 ^ 11 : Nat) : Int) = 0) := by omega
      have hEf : ¬ (((p / 2 ^ 52 % 2 ^ 11 : Nat) : Int) = 2047) := by omega
      have hs := signDouble_finite (p.testBit 63) (2 ^ 52 + p % 2 ^ 52)
        (((p / 2 ^ 52 % 2 ^ 11 : Nat) : Int) - 1075) (by omega) (by omega) (by omega)
      simp only [hEz, hEf, hE0, hE2047, if_false, hp, pure, Except.pure, hc, and_false,
        false_and]
      exact hs


theorem ofPattern_inRange (T : IntType) (s : Nat) :
    T.inRange (T.ofPattern (s % 2 ^ T.width)) := by
  cases T <;>
    simp only [IntType.inRange, IntType.ofPattern, IntType.width, IntType.sizeof,
      IntType.signed, Nat.reduceMul, Nat.reducePow, Nat.reduceSub, Int.reducePow,
      Bool.false_eq_true, true_and, false_and, if_true, if_false] <;>
    (try split) <;> omega

theorem cmpEq_self (r : FloatVal) (h : ∀ s, r ≠ .nan s) : r.cmpEq r = true := by
  cases r with
  | finite s x => simp [FloatVal.cmpEq]
  | inf s => simp [FloatVal.cmpEq]
  | nan s => exact absurd rfl (h s)

theorem binary32Value_ne_nan (p : Nat)
    (hnan : ¬ (p / 2 ^ 23 % 2 ^ 8 = 255 ∧ p % 2 ^ 23 ≠ 0)) : ∀ s, binary32Value p ≠ .nan s := by
  intro s
  unfold binary32Value
  by_cases hE : p / 2 ^ 23 % 2 ^ 8 = 255
  · have hM : p % 2 ^ 23 = 0 := by
      by_contra h
      exact hnan ⟨hE, h⟩
    simp only [hE, hM, if_true]
    intro h; cases h
  · by_cases hE0 : p / 2 ^ 23 % 2 ^ 8 = 0
    · simp only [hE0, (by decide : ¬ (0 : Nat) = 255), if_true, if_false]
      intro h; cases h
    · simp only [hE, hE0, if_false]
      intro h; cases h

theorem binary64Value_ne_nan (p : Nat)
    (hnan : ¬ (p / 2 ^ 52 % 2 ^ 11 = 2047 ∧ p % 2 ^ 52 ≠ 0)) : ∀ s, binary64Value p ≠ .nan s := by
  intro s
  unfold binary64Value
  by_cases hE : p / 2 ^ 52 % 2 ^ 11 = 2047
  · have hM : p % 2 ^ 52 = 0 := by
      by_contra h
      exact hnan ⟨hE, h⟩
    simp only [hE, hM, if_true]
    intro h; cases h
  · by_cases hE0 : p / 2 ^ 52 % 2 ^ 11 = 0
    · simp only [hE0, (by decide : ¬ (0 : Nat) = 2047), if_true, if_false]
      intro h; cases h
    · simp only [hE, hE0, if_false]
      intro h; cases h

/-! ## The claims -/

/-- C1: integer round trip. For every integer type `T` of width 8, 16, 32 or 64, signed
or unsigned, and every value `v` of `T`, capturing the `W/8` bytes of `v` (little-endian
object representation) and decoding them with `asInt<T>` returns exactly `v`; so
`test_int_conversion` returns true. -/
theorem C1_int_round_trip (T : IntType) (v : Int) (hv : T.inRange v) :
    (charPack.ofObject T v >>= fun cp => cp.asInt T) = .ok v ∧
      test_int_conversion T v = .ok true := by
  have hcap := ofPtr_objectBytes (T.pattern v) T.sizeof
  have hdec := asInt_ofObject T v hv
  constructor
  · simp only [charPack.ofObject, hcap, bind, Except.bind, hdec]
  · simp only [test_int_conversion, hcap, bind, Except.bind, hdec, pure, Except.pure,
      decide_True]

/-- Witness of C1: the value -1 of `int8_t` has the 8-bit pattern 0xFF, and that pattern
decoded as a signed 8-bit integer is -1. -/
theorem C1_int_round_trip_witness :
    IntType.inRange .int8_t (-1) ∧ IntType.pattern .int8_t (-1) = 0xFF ∧
      ((charPack.ofObject .int8_t (-1) >>= fun cp => cp.asInt .int8_t) = .ok (-1) ∧
        test_int_conversion .int8_t (-1) = .ok true) :=
  ⟨by decide, by decide, C1_int_round_trip .int8_t (-1) (by decide)⟩

/-- C2: float round trip. For every 32-bit pattern `p` that is not a NaN pattern,
`asFloat_IEEE754` applied to the 4 captured bytes of `p` returns the IEEE 754 binary32
value of `p`, sign included (so also for both zeros and both infinities), the value is
not NaN, and `test_float_conversion` returns true. -/
theorem C2_float_round_trip (p : Nat) (_hp : p < 2 ^ 32)
    (hnan : ¬ (p / 2 ^ 23 % 2 ^ 8 = 255 ∧ p % 2 ^ 23 ≠ 0)) :
    (charPack.ofPtr (some (objectBytes p)) 32 >>= fun cp => cp.asFloat_IEEE754) =
        .ok (binary32Value p) ∧
      (∀ s, binary32Value p ≠ .nan s) ∧
      test_float_conversion p = .ok true := by
  have hcap := ofPtr_objectBytes p 4
  have hdec := asFloat_capture p
  have hne := binary32Value_ne_nan p hnan
  refine ⟨?_, hne, ?_⟩
  · simp only [Nat.reduceMul] at hcap
    simp only [hcap, bind, Except.bind, hdec]
  · simp only [test_float_conversion, hcap, bind, Except.bind, hdec, pure, Except.pure,
      cmpEq_self _ hne]

/-- Witness of C2: the pattern 0x80000000 is a 32-bit pattern that is not a NaN pattern;
it decodes to IEEE 754 value of the pattern, which is `-0.0`. -/
theorem C2_float_round_trip_witness :
    (0x80000000 < 2 ^ 32 ∧ ¬ (0x80000000 / 2 ^ 23 % 2 ^ 8 = 255 ∧ 0x80000000 % 2 ^ 23 ≠ 0)) ∧
      binary32Value 0x80000000 = .finite true 0 ∧
      ((charPack.ofPtr (some (objectBytes 0x80000000)) 32 >>= fun cp => cp.asFloat_IEEE754) =
          .ok (binary32Value 0x80000000) ∧
        (∀ s, binary32Value 0x80000000 ≠ .nan s) ∧
        test_float_conversion 0x80000000 = .ok true) :=
  ⟨⟨by decide, by decide⟩, by simp [binary32Value, Nat.testBit],
    C2_float_round_trip 0x80000000 (by decide) (by decide)⟩

/-- C3: double round trip. For every 64-bit pattern `p` that is not a NaN pattern,
`asDouble_IEEE754` applied to the 8 captured bytes of `p` returns the IEEE 754 binary64
value of `p`, sign included (so also for both zeros and both infinities), the value is
not NaN, and `test_double_conversion` returns true. -/
theorem C3_double_round_trip (p : Nat) (_hp : p < 2 ^ 64)
    (hnan : ¬ (p / 2 ^ 52 % 2 ^ 11 = 2047 ∧ p % 2 ^ 52 ≠ 0)) :
    (charPack.ofPtr (some (objectBytes p)) 64 >>= fun cp => cp.asDouble_IEEE754) =
        .ok (binary64Value p) ∧
      (∀ s, binary64Value p ≠ .nan s) ∧
      test_double_conversion p = .ok true := by
  have hcap := ofPtr_objectBytes p 8
  have hdec := asDouble_capture p
  have hne := binary64Value_ne_nan p hnan
  refine ⟨?_, hne, ?_⟩
  · simp only [Nat.reduceMul] at hcap
    simp only [hcap, bind, Except.bind, hdec]
  · simp only [test_double_conversion, hcap, bind, Except.bind, hdec, pure, Except.pure,
      cmpEq_self _ hne]

/-- Witness of C3: the pattern 0x3FF8000000000000 is a 64-bit pattern that is not a NaN
pattern; its IEEE 754 value is 1.5, and that is what the decoder returns. -/
theorem C3_double_round_trip_witness :
    (0x3FF8000000000000 < 2 ^ 64 ∧
      ¬ (0x3FF8000000000000 / 2 ^ 52 % 2 ^ 11 = 2047 ∧ 0x3FF8000000000000 % 2 ^ 52 ≠ 0)) ∧
      binary64Value 0x3FF8000000000000 = .finite false (3 / 2) ∧
      ((charPack.ofPtr (some (objectBytes 0x3FF8000000000000)) 64 >>=
          fun cp => cp.asDouble_IEEE754) = .ok (binary64Value 0x3FF8000000000000) ∧
        (∀ s, binary64Value 0x3FF8000000000000 ≠ .nan s) ∧
        test_double_conversion 0x3FF8000000000000 = .ok true) :=
  ⟨⟨by decide, by decide⟩, by
      simp only [binary64Value,
        (by decide : Nat.testBit 0x3FF8000000000000 63 = false)]
      norm_num,
    C3_double_round_trip 0x3FF8000000000000 (by decide) (by decide)⟩


/-- C4: reference value of `asInt`. For every integer type `T` of width `W` and every
byte sequence `b[0..n-1]` with `8 * n ≤ W`, `asInt<T>` returns the value of `T` whose bit
pattern is `(Σ_{i<n} b[i] * 256^i) mod 2^W`: the bytes read as a little-endian number,
reinterpreted in twos complement when `T` is signed. -/
theorem C4_asInt_reference (T : IntType) (cp : charPack) (h : 8 * cp.size ≤ T.width) :
    cp.asInt T = .ok (T.ofPattern
      ((∑ i ∈ Finset.range cp.size, (cp.bytes.getD i 0).val * 256 ^ i) % 2 ^ T.width)) :=
  asInt_eq T cp (by unfold charPack.bits; omega)

/-- Witness of C4, the example of the header: the bytes `[0] = 10000101b`,
`[1] = 01010001b` convert to `2^14 + 2^12 + 2^8 + 2^7 + 2^2 + 2^0`. -/
theorem C4_asInt_reference_witness :
    8 * (charPack.mk [0b10000101, 0b01010001]).size ≤ IntType.width .int16_t ∧
      (charPack.mk [0b10000101, 0b01010001]).asInt .int16_t =
        .ok (2 ^ 14 + 2 ^ 12 + 2 ^ 8 + 2 ^ 7 + 2 ^ 2 + 2 ^ 0) ∧
      (charPack.mk [0b10000101, 0b01010001]).asInt .int16_t =
        .ok (IntType.ofPattern .int16_t
          ((∑ i ∈ Finset.range (charPack.mk [0b10000101, 0b01010001]).size,
            ((charPack.mk [0b10000101, 0b01010001]).bytes.getD i 0).val * 256 ^ i) %
              2 ^ IntType.width .int16_t)) :=
  ⟨by decide, by decide,
    C4_asInt_reference .int16_t (charPack.mk [0b10000101, 0b01010001]) (by decide)⟩

/-- C5: for every byte sequence and every position `pos < bits()`, `getBit(pos)` is
true exactly when `((byte[pos/8] >> (pos%8)) & 1) = 1`. -/
theorem C5_getBit_extraction (cp : charPack) (pos : Nat) (h : pos < cp.bits) :
    ∃ b, cp.bytes[pos / 8]? = some b ∧
      cp.getBit pos = .ok (decide ((b.val >>> (pos % 8)) &&& 1 = 1)) := by
  obtain ⟨b, hb, hg⟩ := getBit_of_lt cp pos h
  refine ⟨b, hb, ?_⟩
  rw [hg]
  congr 1
  have := shift_and_one_iff b.val (pos % 8)
  cases hb2 : b.val.testBit (pos % 8)
  · simp [hb2] at this; simp [this]
  · simp [hb2] at this; simp [this]

/-- Witness of C5: bit 14 of the bytes `[0x85, 0x51]` is bit 6 of byte 1, which is
set. -/
theorem C5_getBit_extraction_witness :
    14 < (charPack.mk [0x85, 0x51]).bits ∧
      (charPack.mk [0x85, 0x51]).getBit 14 = .ok true ∧
      ∃ b, (charPack.mk [0x85, 0x51]).bytes[14 / 8]? = some b ∧
        (charPack.mk [0x85, 0x51]).getBit 14 = .ok (decide ((b.val >>> (14 % 8)) &&& 1 = 1)) :=
  ⟨by decide, by decide, C5_getBit_extraction (charPack.mk [0x85, 0x51]) 14 (by decide)⟩

theorem copyLoopInt_ok (cptr : Nat → Byte) (v : List Byte) (n : Nat)
    (h : n ≤ INT_MAX) :
    charPack.copyLoopInt cptr v n = .ok (charPack.copyLoop cptr v n) := by
  induction n with
  | zero => rfl
  | succ n ih =>
    have hn : ¬ n + 1 > INT_MAX := by omega
    simp only [charPack.copyLoopInt, ih (by omega), bind, Except.bind, hn, if_false,
      charPack.copyLoop]

theorem copyLoopInt_overflow (cptr : Nat → Byte) (v : List Byte) (n : Nat)
    (h : n > INT_MAX) :
    charPack.copyLoopInt cptr v n = .error .intOverflow := by
  induction n with
  | zero => simp [INT_MAX] at h
  | succ n ih =>
    by_cases hn : n > INT_MAX
    · simp only [charPack.copyLoopInt, ih hn, bind, Except.bind]
    · rw [charPack.copyLoopInt, copyLoopInt_ok cptr v n (by omega)]
      simp only [bind, Except.bind, h, if_true]

theorem ofPtrOn_some (heap : Nat) (cptr : Nat → Byte) (bitLength : Nat)
    (h : bitLength % 8 = 0) (halloc : bitLength / 8 ≤ heap)
    (hint : bitLength / 8 ≤ INT_MAX) :
    charPack.ofPtrOn heap (some cptr) bitLength =
      .ok ⟨(List.range (bitLength / 8)).map cptr⟩ := by
  have hno : ¬ bitLength / 8 > heap := by omega
  simp only [charPack.ofPtrOn, sizeofUChar, Nat.one_mul, hno, if_false, h, ne_eq,
    not_true_eq_false, List.length_replicate, copyLoopInt_ok _ _ _ hint, bind, Except.bind,
    pure, Except.pure, ofPtr_bytes]

theorem ofPtrOn_none (heap bitLength : Nat) (h : bitLength % 8 = 0)
    (halloc : bitLength / 8 ≤ heap) :
    charPack.ofPtrOn heap none bitLength = .ok ⟨[]⟩ := by
  have hno : ¬ bitLength / 8 > heap := by omega
  simp only [charPack.ofPtrOn, sizeofUChar, Nat.one_mul, hno, if_false, h, ne_eq,
    not_true_eq_false]

theorem ofPtrOn_invalid (heap : Nat) (vptr : Option (Nat → Byte)) (bitLength : Nat)
    (h : bitLength % 8 ≠ 0) (halloc : bitLength / 8 ≤ heap) :
    charPack.ofPtrOn heap vptr bitLength = .error .invalidLength := by
  have hno : ¬ bitLength / 8 > heap := by omega
  simp only [charPack.ofPtrOn, sizeofUChar, Nat.one_mul, hno, if_false, h, ne_eq,
    not_false_eq_true, if_true]

theorem ofPtrOn_badAlloc (heap : Nat) (vptr : Option (Nat → Byte)) (bitLength : Nat)
    (halloc : bitLength / 8 > heap) :
    charPack.ofPtrOn heap vptr bitLength = .error .badAlloc := by
  simp only [charPack.ofPtrOn, sizeofUChar, Nat.one_mul, halloc, if_true]

theorem ofPtrOn_overflow (heap : Nat) (cptr : Nat → Byte) (bitLength : Nat)
    (h : bitLength % 8 = 0) (halloc : bitLength / 8 ≤ heap)
    (hint : bitLength / 8 > INT_MAX) :
    charPack.ofPtrOn heap (some cptr) bitLength = .error .intOverflow := by
  have hno : ¬ bitLength / 8 > heap := by omega
  simp only [charPack.ofPtrOn, sizeofUChar, Nat.one_mul, hno, if_false, h, ne_eq,
    not_true_eq_false, List.length_replicate, copyLoopInt_overflow _ _ _ hint, bind,
    Except.bind]

/-- The constructor with the limits of the machine agrees with `ofPtr` wherever the
allocation is granted and the `int` counter stays in range. -/
theorem ofPtrOn_eq_ofPtr (heap : Nat) (vptr : Option (Nat → Byte)) (bitLength : Nat)
    (halloc : bitLength / 8 ≤ heap) (hint : bitLength / 8 ≤ INT_MAX) :
    charPack.ofPtrOn heap vptr bitLength = charPack.ofPtr vptr bitLength := by
  by_cases h : bitLength % 8 = 0
  · cases vptr with
    | none =>
      rw [ofPtrOn_none heap bitLength h halloc]
      simp [charPack.ofPtr, sizeofUChar, h]
    | some cptr =>
      rw [ofPtrOn_some heap cptr bitLength h halloc hint, ofPtr_some cptr bitLength h,
        ofPtr_bytes]
  · rw [ofPtrOn_invalid heap vptr bitLength h halloc]
    simp [charPack.ofPtr, sizeofUChar, h]

/-- Counterexample to C6 as stated: a capture of `2^34` bits from a non-null region, a
multiple of 8, counts its `2^31` bytes with an `int` and overflows it; a capture of
`2^64 - 8` bits, a multiple of 8, asks for more bytes than a heap of `2^40` bytes grants
and throws `std::bad_alloc`. Neither holds the bytes of the source. -/
theorem C6_capture_copies_counterexample :
    (2 ^ 34 % 8 = 0 ∧
      charPack.ofPtrOn (2 ^ 40) (some (objectBytes 20)) (2 ^ 34) = .error .intOverflow) ∧
    ((2 ^ 64 - 8) % 8 = 0 ∧
      charPack.ofPtrOn (2 ^ 40) (some (objectBytes 20)) (2 ^ 64 - 8) = .error .badAlloc) ∧
    ¬ ∃ cp, charPack.ofPtrOn (2 ^ 40) (some (objectBytes 20)) (2 ^ 34) = .ok cp ∧
      cp.size = 2 ^ 34 / 8 := by
  have h1 : charPack.ofPtrOn (2 ^ 40) (some (objectBytes 20)) (2 ^ 34) = .error .intOverflow :=
    ofPtrOn_overflow _ _ _ (by decide) (by decide) (by decide)
  refine ⟨⟨by decide, h1⟩, ⟨by decide, ofPtrOn_badAlloc _ _ _ (by decide)⟩, ?_⟩
  rintro ⟨cp, hcp, _⟩
  rw [h1] at hcp
  cases hcp

/-- C6, amended: for every non-null source region and every `bitLength` that is a
multiple of 8, with `bitLength/8` bytes that the allocator grants and that number at most
`INT_MAX`, `charPack(ptr, bitLength)` holds exactly `bitLength/8` bytes, byte `j` of the
result equals byte `j` of the source for every `j < bitLength/8`, and `bits()` returns
`bitLength`, a multiple of 8. -/
theorem C6_capture_copies (heap : Nat) (cptr : Nat → Byte) (bitLength : Nat)
    (h : bitLength % 8 = 0) (halloc : bitLength / 8 ≤ heap)
    (hint : bitLength / 8 ≤ INT_MAX) :
    ∃ cp, charPack.ofPtrOn heap (some cptr) bitLength = .ok cp ∧
      cp.size = bitLength / 8 ∧
      (∀ j, j < bitLength / 8 → cp.bytes[j]? = some (cptr j)) ∧
      cp.bits = bitLength ∧ cp.bits % 8 = 0 := by
  refine ⟨⟨(List.range (bitLength / 8)).map cptr⟩,
    ofPtrOn_some heap cptr bitLength h halloc hint, ?_, ?_, ?_, ?_⟩
  · simp [charPack.size]
  · intro j hj
    simp [List.getElem?_range hj]
  · simp only [charPack.bits, charPack.size, List.length_map, List.length_range]
    omega
  · simp only [charPack.bits, charPack.size, List.length_map, List.length_range]
    omega

/-- Witness of C6, amended: capturing the 32 bits of an `int` with value 20 gives the
four bytes 20, 0, 0, 0 of that value. -/
theorem C6_capture_copies_witness :
    (32 % 8 = 0 ∧ 32 / 8 ≤ 2 ^ 40 ∧ 32 / 8 ≤ INT_MAX) ∧
      charPack.ofPtrOn (2 ^ 40) (some (objectBytes 20)) 32 = .ok ⟨[20, 0, 0, 0]⟩ ∧
      ∃ cp, charPack.ofPtrOn (2 ^ 40) (some (objectBytes 20)) 32 = .ok cp ∧
        cp.size = 32 / 8 ∧
        (∀ j, j < 32 / 8 → cp.bytes[j]? = some (objectBytes 20 j)) ∧
        cp.bits = 32 ∧ cp.bits % 8 = 0 :=
  ⟨⟨by decide, by decide, by decide⟩, by decide,
    C6_capture_copies (2 ^ 40) (objectBytes 20) 32 (by decide) (by decide) (by decide)⟩

/-- Counterexample to C7 as stated: with a heap of `2^40` bytes, `charPack(nullptr,
2^64 - 1)` throws `std::bad_alloc` in the member initializer and never reaches the
invalid-length check, although `2^64 - 1` is not a multiple of 8; and `charPack(nullptr,
2^64 - 8)` fails the same way although `2^64 - 8` is a multiple of 8. -/
theorem C7_invalid_length_counterexample :
    ((2 ^ 64 - 1) % 8 ≠ 0 ∧
      charPack.ofPtrOn (2 ^ 40) none (2 ^ 64 - 1) = .error .badAlloc ∧
      charPack.ofPtrOn (2 ^ 40) none (2 ^ 64 - 1) ≠ .error .invalidLength) ∧
    ((2 ^ 64 - 8) % 8 = 0 ∧
      charPack.ofPtrOn (2 ^ 40) none (2 ^ 64 - 8) = .error .badAlloc) := by
  have h1 : charPack.ofPtrOn (2 ^ 40) none (2 ^ 64 - 1) = .error .badAlloc :=
    ofPtrOn_badAlloc _ _ _ (by decide)
  refine ⟨⟨by decide, h1, ?_⟩, by decide, ofPtrOn_badAlloc _ _ _ (by decide)⟩
  rw [h1]
  intro hc
  cases hc

/-- C7, amended: for every pointer and every `bitLength` whose `bitLength/8` bytes the
allocator grants, `charPack(ptr, bitLength)` fails with the invalid-length error (and so
produces no sequence) when `bitLength % 8 ≠ 0`; when `bitLength % 8 = 0` it does not
fail, provided the pointer is null or `bitLength/8` is at most `INT_MAX`. -/
theorem C7_invalid_length (heap : Nat) (vptr : Option (Nat → Byte)) (bitLength : Nat)
    (halloc : bitLength / 8 ≤ heap) :
    (bitLength % 8 ≠ 0 → charPack.ofPtrOn heap vptr bitLength = .error .invalidLength) ∧
      (bitLength % 8 = 0 → (vptr = none ∨ bitLength / 8 ≤ INT_MAX) →
        ∃ cp, charPack.ofPtrOn heap vptr bitLength = .ok cp) := by
  constructor
  · intro h
    exact ofPtrOn_invalid heap vptr bitLength h halloc
  · intro h hsmall
    cases vptr with
    | none => exact ⟨_, ofPtrOn_none heap bitLength h halloc⟩
    | some cptr =>
      rcases hsmall with hnone | hint
      · cases hnone
      · exact ⟨_, ofPtrOn_some heap cptr bitLength h halloc hint⟩

/-- Witness of C7, amended: a capture with `bitLength = 5` fails with the invalid-length
error. -/
theorem C7_invalid_length_witness :
    (5 / 8 ≤ 2 ^ 40 ∧ 5 % 8 ≠ 0) ∧
      charPack.ofPtrOn (2 ^ 40) (some (objectBytes 20)) 5 = .error .invalidLength :=
  ⟨⟨by decide, by decide⟩,
    (C7_invalid_length (2 ^ 40) (some (objectBytes 20)) 5 (by decide)).1 (by decide)⟩

/-- Counterexample to C8 as stated: `charPack(nullptr, 5)` does not yield the empty
sequence, it fails with the invalid-length error, because the length check precedes the
null check; and with a heap of `2^40` bytes `charPack(nullptr, 2^64 - 8)`, a multiple
of 8, throws `std::bad_alloc`, because the vector is allocated before the null check. -/
theorem C8_null_capture_counterexample :
    (charPack.ofPtrOn (2 ^ 40) none 5 = .error .invalidLength ∧
      ¬ ∃ cp, charPack.ofPtrOn (2 ^ 40) none 5 = .ok cp ∧ cp.size = 0 ∧ cp.bits = 0) ∧
    ((2 ^ 64 - 8) % 8 = 0 ∧
      charPack.ofPtrOn (2 ^ 40) none (2 ^ 64 - 8) = .error .badAlloc ∧
      ¬ ∃ cp, charPack.ofPtrOn (2 ^ 40) none (2 ^ 64 - 8) = .ok cp ∧
        cp.size = 0 ∧ cp.bits = 0) := by
  have h1 : charPack.ofPtrOn (2 ^ 40) none 5 = .error .invalidLength :=
    ofPtrOn_invalid _ _ _ (by decide) (by decide)
  have h2 : charPack.ofPtrOn (2 ^ 40) none (2 ^ 64 - 8) = .error .badAlloc :=
    ofPtrOn_badAlloc _ _ _ (by decide)
  refine ⟨⟨h1, ?_⟩, by decide, h2, ?_⟩
  · rintro ⟨cp, hcp, _⟩
    rw [h1] at hcp
    cases hcp
  · rintro ⟨cp, hcp, _⟩
    rw [h2] at hcp
    cases hcp

/-- C8, amended: for every `bitLength` that is a multiple of 8 and whose `bitLength/8`
bytes the allocator grants, `charPack(nullptr, bitLength)` yields the empty sequence:
size 0 and `bits() = 0`. -/
theorem C8_null_capture (heap bitLength : Nat) (h : bitLength % 8 = 0)
    (halloc : bitLength / 8 ≤ heap) :
    ∃ cp, charPack.ofPtrOn heap none bitLength = .ok cp ∧ cp.size = 0 ∧ cp.bits = 0 :=
  ⟨⟨[]⟩, ofPtrOn_none heap bitLength h halloc, rfl, rfl⟩

/-- Witness of C8, amended: a null capture of 64 bits is the empty sequence. -/
theorem C8_null_capture_witness :
    (64 % 8 = 0 ∧ 64 / 8 ≤ 2 ^ 40) ∧
      ∃ cp, charPack.ofPtrOn (2 ^ 40) none 64 = .ok cp ∧ cp.size = 0 ∧ cp.bits = 0 :=
  ⟨⟨by decide, by decide⟩, C8_null_capture (2 ^ 40) 64 (by decide) (by decide)⟩

/-- C9: for every byte sequence and every `pos`, `getBit(pos)` fails with the
out-of-range error if and only if `pos ≥ bits()`; when `pos < bits()` the byte index
`pos / 8` lies inside the stored bytes and a value is returned; every `getBit` on the
empty sequence fails. -/
theorem C9_getBit_out_of_range (cp : charPack) (pos : Nat) :
    (cp.getBit pos = .error .outOfRange ↔ pos ≥ cp.bits) ∧
      (pos < cp.bits → pos / 8 < cp.size ∧ ∃ r, cp.getBit pos = .ok r) ∧
      charPack.getBit ⟨[]⟩ pos = .error .outOfRange := by
  have hok : pos < cp.bits → pos / 8 < cp.size ∧ ∃ r, cp.getBit pos = .ok r := by
    intro h
    obtain ⟨b, _, hg⟩ := getBit_of_lt cp pos h
    refine ⟨?_, _, hg⟩
    unfold charPack.bits at h
    omega
  refine ⟨⟨?_, ?_⟩, hok, ?_⟩
  · intro herr
    by_contra hlt
    obtain ⟨_, r, hr⟩ := hok (by omega)
    rw [hr] at herr
    cases herr
  · intro h
    simp [charPack.getBit, h]
  · simp [charPack.getBit, charPack.bits, charPack.size]

/-- Witness of C9: on the two bytes `[0x85, 0x51]`, position 16 is out of range and
position 15 is not. -/
theorem C9_getBit_out_of_range_witness :
    (charPack.mk [0x85, 0x51]).getBit 16 = .error .outOfRange ∧
      ∃ r, (charPack.mk [0x85, 0x51]).getBit 15 = .ok r :=
  ⟨(C9_getBit_out_of_range (charPack.mk [0x85, 0x51]) 16).1.mpr (by decide),
    ((C9_getBit_out_of_range (charPack.mk [0x85, 0x51]) 15).2.1 (by decide)).2⟩

/-- C10: for every integer type `T` of width `W` and every byte sequence, `asInt<T>`
fails with the width-overflow error if and only if `bits() > W`; when `bits() ≤ W` it
returns a value of `T`; the empty sequence decodes to 0. -/
theorem C10_asInt_width_overflow (T : IntType) (cp : charPack) :
    (cp.asInt T = .error .widthOverflow ↔ cp.bits > T.width) ∧
      (cp.bits ≤ T.width → ∃ v, cp.asInt T = .ok v ∧ T.inRange v) ∧
      charPack.asInt T ⟨[]⟩ = .ok 0 := by
  have hok : cp.bits ≤ T.width → ∃ v, cp.asInt T = .ok v ∧ T.inRange v := by
    intro h
    exact ⟨_, asInt_eq T cp h, ofPattern_inRange T _⟩
  refine ⟨⟨?_, ?_⟩, hok, ?_⟩
  · intro herr
    by_contra hle
    obtain ⟨v, hv, _⟩ := hok (by omega)
    rw [hv] at herr
    cases herr
  · intro h
    have h2 : cp.bits > T.sizeof * 8 := h
    simp [charPack.asInt, h2]
  · simp [charPack.asInt, charPack.bits, charPack.size, charPack.asIntLoop]

/-- Witness of C10: two bytes do not fit `int8_t` and do fit `int16_t`. -/
theorem C10_asInt_width_overflow_witness :
    (charPack.mk [0x85, 0x51]).asInt .int8_t = .error .widthOverflow ∧
      ∃ v, (charPack.mk [0x85, 0x51]).asInt .int16_t = .ok v ∧ IntType.inRange .int16_t v :=
  ⟨(C10_asInt_width_overflow .int8_t (charPack.mk [0x85, 0x51])).1.mpr (by decide),
    (C10_asInt_width_overflow .int16_t (charPack.mk [0x85, 0x51])).2.1 (by decide)⟩

/-! ## Lemmas on the stored pattern -/

theorem objectBytes_cons_zero (b : Byte) (x : Nat) :
    objectBytes (b.val + 256 * x) 0 = b := by
  apply Fin.ext
  have hb : b.val < 256 := b.isLt
  simp only [objectBytes, pow_zero, Nat.div_one]
  omega

theorem objectBytes_cons_succ (b : Byte) (x j : Nat) :
    objectBytes (b.val + 256 * x) (j + 1) = objectBytes x j := by
  apply Fin.ext
  have hb : b.val < 256 := b.isLt
  have hdiv : (b.val + 256 * x) / 256 ^ (j + 1) = x / 256 ^ j := by
    have h1 : 256 ^ (j + 1) = 256 * 256 ^ j := by rw [pow_succ]; ring
    have h2 : (b.val + 256 * x) / 256 = x := by omega
    rw [h1, ← Nat.div_div_eq_div_mul, h2]
  simp only [objectBytes, hdiv]

theorem map_objectBytes_leValue (l : List Byte) :
    (List.range l.length).map (objectBytes (leValue l)) = l := by
  induction l with
  | nil => rfl
  | cons b l ih =>
    rw [List.length_cons, List.range_succ_eq_map, List.map_cons, List.map_map, leValue,
      objectBytes_cons_zero]
    congr 1
    have hfun : (objectBytes (b.val + 256 * leValue l) ∘ Nat.succ) = objectBytes (leValue l) := by
      funext j
      exact objectBytes_cons_succ b (leValue l) j
    rw [hfun, ih]

theorem pack_eq_capture (cp : charPack) :
    cp = ⟨(List.range cp.size).map (objectBytes cp.pattern)⟩ := by
  cases cp with
  | mk l =>
    simp only [charPack.size, charPack.pattern]
    rw [map_objectBytes_leValue]

theorem asFloat_of_bits (cp : charPack) (h : cp.bits = 32) :
    cp.asFloat_IEEE754 = .ok (binary32Value cp.pattern) := by
  have hs : cp.size = 4 := by unfold charPack.bits at h; omega
  have hcp := pack_eq_capture cp
  rw [hs] at hcp
  conv_lhs => rw [hcp]
  exact asFloat_capture cp.pattern

theorem asDouble_of_bits (cp : charPack) (h : cp.bits = 64) :
    cp.asDouble_IEEE754 = .ok (binary64Value cp.pattern) := by
  have hs : cp.size = 8 := by unfold charPack.bits at h; omega
  have hcp := pack_eq_capture cp
  rw [hs] at hcp
  conv_lhs => rw [hcp]
  exact asDouble_capture cp.pattern

theorem getBit_pattern (cp : charPack) (pos : Nat) (h : pos < cp.bits) :
    cp.getBit pos = .ok (cp.pattern.testBit pos) := by
  have hcp := pack_eq_capture cp
  conv_lhs => rw [hcp]
  exact capture_getBit cp.pattern cp.size pos h

theorem index_pattern (cp : charPack) (j : Nat) (h : j < cp.size) :
    cp.index j = .ok (objectBytes cp.pattern j) := by
  have hcp := pack_eq_capture cp
  conv_lhs => rw [hcp]
  exact capture_index cp.pattern cp.size j h

/-- C11: for every byte sequence, `asFloat_IEEE754` fails with the wrong-width error if
and only if `bits() ≠ 32`, and `asDouble_IEEE754` fails with the wrong-width error if and
only if `bits() ≠ 64`; on a sequence of exactly the right length the decoder returns a
value, so it does not fail and no byte or bit access of it is out of range. -/
theorem C11_wrong_width (cp : charPack) :
    (cp.asFloat_IEEE754 = .error .wrongWidth ↔ cp.bits ≠ 32) ∧
      (cp.asDouble_IEEE754 = .error .wrongWidth ↔ cp.bits ≠ 64) ∧
      (cp.bits = 32 → (∃ r, cp.asFloat_IEEE754 = .ok r) ∧
        (∃ b, cp.index (cp.size - 1) = .ok b) ∧ (∃ b, cp.index (cp.size - 2) = .ok b) ∧
        ∀ i, i < 32 → ∃ b, cp.getBit i = .ok b) ∧
      (cp.bits = 64 → (∃ r, cp.asDouble_IEEE754 = .ok r) ∧
        (∃ b, cp.index (cp.size - 1) = .ok b) ∧ (∃ b, cp.index (cp.size - 2) = .ok b) ∧
        ∀ i, i < 64 → ∃ b, cp.getBit i = .ok b) := by
  refine ⟨⟨?_, ?_⟩, ⟨?_, ?_⟩, ?_, ?_⟩
  · intro herr h32
    rw [asFloat_of_bits cp h32] at herr
    cases herr
  · intro h
    simp [charPack.asFloat_IEEE754, h]
  · intro herr h64
    rw [asDouble_of_bits cp h64] at herr
    cases herr
  · intro h
    simp [charPack.asDouble_IEEE754, h]
  · intro h
    have hs : cp.size = 4 := by unfold charPack.bits at h; omega
    exact ⟨⟨_, asFloat_of_bits cp h⟩, ⟨_, index_pattern cp _ (by omega)⟩,
      ⟨_, index_pattern cp _ (by omega)⟩, fun i hi => ⟨_, getBit_pattern cp i (by omega)⟩⟩
  · intro h
    have hs : cp.size = 8 := by unfold charPack.bits at h; omega
    exact ⟨⟨_, asDouble_of_bits cp h⟩, ⟨_, index_pattern cp _ (by omega)⟩,
      ⟨_, index_pattern cp _ (by omega)⟩, fun i hi => ⟨_, getBit_pattern cp i (by omega)⟩⟩

/-- Witness of C11: three bytes are rejected by the float decoder, and four bytes are
decoded. -/
theorem C11_wrong_width_witness :
    (charPack.mk [0, 0, 0x80]).asFloat_IEEE754 = .error .wrongWidth ∧
      ∃ r, (charPack.mk [0, 0, 0x80, 0x3F]).asFloat_IEEE754 = .ok r :=
  ⟨(C11_wrong_width (charPack.mk [0, 0, 0x80])).1.mpr (by decide),
    ((C11_wrong_width (charPack.mk [0, 0, 0x80, 0x3F])).2.2.1 (by decide)).1⟩

/-! ## Lemmas on decoded patterns -/

theorem decode32 (p : Nat) :
    (charPack.ofPtr (some (objectBytes p)) 32 >>= fun cp => cp.asFloat_IEEE754) =
      .ok (binary32Value p) := by
  have hcap := ofPtr_objectBytes p 4
  simp only [Nat.reduceMul] at hcap
  simp only [hcap, bind, Except.bind, asFloat_capture p]

theorem decode64 (p : Nat) :
    (charPack.ofPtr (some (objectBytes p)) 64 >>= fun cp => cp.asDouble_IEEE754) =
      .ok (binary64Value p) := by
  have hcap := ofPtr_objectBytes p 8
  simp only [Nat.reduceMul] at hcap
  simp only [hcap, bind, Except.bind, asDouble_capture p]

theorem binary32Value_special (p : Nat) (hE : p / 2 ^ 23 % 2 ^ 8 = 255) :
    binary32Value p =
      if p % 2 ^ 23 = 0 then .inf (p.testBit 31) else .nan (p.testBit 31) := by
  unfold binary32Value
  simp only [hE, if_true]

theorem binary32Value_subnormal (p : Nat) (hE : p / 2 ^ 23 % 2 ^ 8 = 0) :
    binary32Value p = .finite (p.testBit 31) (((p % 2 ^ 23 : Nat) : ℚ) * 2 ^ (-149 : Int)) := by
  unfold binary32Value
  simp only [hE, (by decide : ¬ (0 : Nat) = 255), if_true, if_false]

theorem binary32Value_normal (p : Nat) (h0 : p / 2 ^ 23 % 2 ^ 8 ≠ 0)
    (h255 : p / 2 ^ 23 % 2 ^ 8 ≠ 255) :
    binary32Value p = .finite (p.testBit 31)
      (((2 ^ 23 + p % 2 ^ 23 : Nat) : ℚ) * 2 ^ (((p / 2 ^ 23 % 2 ^ 8 : Nat) : Int) - 150)) := by
  unfold binary32Value
  simp only [h0, h255, if_false]

theorem binary32Value_signBit (p : Nat) :
    (binary32Value p).signBit = p.testBit 31 := by
  by_cases hE : p / 2 ^ 23 % 2 ^ 8 = 255
  · rw [binary32Value_special p hE]
    by_cases hM : p % 2 ^ 23 = 0
    · rw [if_pos hM]
      rfl
    · rw [if_neg hM]
      rfl
  · by_cases hE0 : p / 2 ^ 23 % 2 ^ 8 = 0
    · rw [binary32Value_subnormal p hE0]
      rfl
    · rw [binary32Value_normal p hE0 hE]
      rfl

/-- C12: for every 32-bit pattern whose exponent field is 255, the result of
`asFloat_IEEE754` is an infinity when the mantissa field is 0, positive when bit 31 is 0
and negative when bit 31 is 1, and it is NaN when the mantissa field is not 0, whatever
the mantissa. -/
theorem C12_float_special (p : Nat) (_hp : p < 2 ^ 32) (hE : p / 2 ^ 23 % 2 ^ 8 = 255) :
    (charPack.ofPtr (some (objectBytes p)) 32 >>= fun cp => cp.asFloat_IEEE754) =
      .ok (if p % 2 ^ 23 = 0 then .inf (p.testBit 31) else .nan (p.testBit 31)) := by
  rw [decode32, binary32Value_special p hE]

/-- Witness of C12: the pattern 0x7F800000 decodes to positive infinity. -/
theorem C12_float_special_witness :
    (0x7F800000 < 2 ^ 32 ∧ 0x7F800000 / 2 ^ 23 % 2 ^ 8 = 255) ∧
      (if 0x7F800000 % 2 ^ 23 = 0 then FloatVal.inf (Nat.testBit 0x7F800000 31)
        else FloatVal.nan (Nat.testBit 0x7F800000 31)) = .inf false ∧
      (charPack.ofPtr (some (objectBytes 0x7F800000)) 32 >>= fun cp => cp.asFloat_IEEE754) =
        .ok (if 0x7F800000 % 2 ^ 23 = 0 then .inf (Nat.testBit 0x7F800000 31)
          else .nan (Nat.testBit 0x7F800000 31)) :=
  ⟨⟨by decide, by decide⟩, by decide, C12_float_special 0x7F800000 (by decide) (by decide)⟩

/-- C13: `asFloat_IEEE754` on the pattern 0x00000000 returns `+0.0` and on 0x80000000
returns `-0.0`; for every 32-bit pattern the sign bit of the result (of a zero, of an
infinity and of a NaN too) is set exactly when bit 31 of the pattern is set. -/
theorem C13_signed_zero (p : Nat) (_hp : p < 2 ^ 32) :
    (charPack.ofPtr (some (objectBytes 0x00000000)) 32 >>= fun cp => cp.asFloat_IEEE754) =
        .ok (.finite false 0) ∧
      (charPack.ofPtr (some (objectBytes 0x80000000)) 32 >>= fun cp => cp.asFloat_IEEE754) =
        .ok (.finite true 0) ∧
      ∃ r, (charPack.ofPtr (some (objectBytes p)) 32 >>= fun cp => cp.asFloat_IEEE754) =
          .ok r ∧ (r.signBit = true ↔ p.testBit 31 = true) := by
  refine ⟨?_, ?_, _, decode32 p, by rw [binary32Value_signBit p]⟩
  · rw [decode32, binary32Value_subnormal _ (by decide)]
    simp
  · rw [decode32, binary32Value_subnormal _ (by decide)]
    have : Nat.testBit 0x80000000 31 = true := by decide
    simp [this]

/-- Witness of C13: the NaN pattern 0xFFC00000 has bit 31 set, and it decodes to a value
with the sign bit set. -/
theorem C13_signed_zero_witness :
    (0xFFC00000 < 2 ^ 32 ∧ Nat.testBit 0xFFC00000 31 = true) ∧
      ((charPack.ofPtr (some (objectBytes 0x00000000)) 32 >>= fun cp => cp.asFloat_IEEE754) =
          .ok (.finite false 0) ∧
        (charPack.ofPtr (some (objectBytes 0x80000000)) 32 >>= fun cp => cp.asFloat_IEEE754) =
          .ok (.finite true 0) ∧
        ∃ r, (charPack.ofPtr (some (objectBytes 0xFFC00000)) 32 >>=
            fun cp => cp.asFloat_IEEE754) = .ok r ∧
          (r.signBit = true ↔ Nat.testBit 0xFFC00000 31 = true)) :=
  ⟨⟨by decide, by decide⟩, C13_signed_zero 0xFFC00000 (by decide)⟩

/-! ## Lemmas on copy and assignment -/

theorem foldl_push (l acc : List Byte) :
    l.foldl (fun a el => a ++ [el]) acc = acc ++ l := by
  induction l generalizing acc with
  | nil => simp
  | cons b l ih => simp [List.foldl_cons, ih]

theorem copy_bytes (s : charPack) : charPack.copy s = s := by
  cases s with
  | mk l => simp [charPack.copy, foldl_push]

theorem foldl_push_back (l : List Byte) (st : Store) (a : Nat) :
    l.foldl (fun s el => s.push_back a el) st =
      Function.update st a ⟨(st a).bytes ++ l⟩ := by
  induction l generalizing st with
  | nil => simp
  | cons b l ih =>
    rw [List.foldl_cons, ih]
    simp [Store.push_back]

theorem operatorAssign_eq (st : Store) (self other : Nat) :
    operatorAssign st self other =
      Function.update st self ⟨(if other = self then [] else (st other).bytes)⟩ := by
  unfold operatorAssign
  simp only [foldl_push_back, Store.clear, Function.update_same, List.nil_append,
    Function.update_idem]
  by_cases h : other = self
  · subst h
    simp
  · simp [h, Function.update_noteq h]

/-- C14, on the code: the copy constructor produces exactly the bytes of its source, and
`t = s` for two different objects gives `t` the bytes of `s` and changes no other object;
but a self-assignment `t = t` leaves `t` empty, whatever it held, because `clear()` runs
before the source is read. -/
theorem C14_copy_assign (st : Store) (t s : Nat) :
    charPack.copy (st s) = st s ∧
      (t ≠ s → operatorAssign st t s t = st s ∧
        ∀ a, a ≠ t → operatorAssign st t s a = st a) ∧
      operatorAssign st t t t = ⟨[]⟩ := by
  refine ⟨copy_bytes _, ?_, ?_⟩
  · intro hts
    rw [operatorAssign_eq]
    have hst : ¬ s = t := fun h => hts h.symm
    refine ⟨?_, ?_⟩
    · simp [hst]
    · intro a ha
      simp [Function.update_noteq ha]
  · rw [operatorAssign_eq]
    simp

/-- Witness of C14: an object holding the bytes 1, 2, 3 and assigned to itself holds no
bytes afterwards, so the self-assignment did not leave it unchanged. -/
theorem C14_copy_assign_witness :
    operatorAssign (fun _ => ⟨[1, 2, 3]⟩) 0 0 0 = ⟨[]⟩ ∧
      operatorAssign (fun _ => ⟨[1, 2, 3]⟩) 0 0 0 ≠ (fun _ => (⟨[1, 2, 3]⟩ : charPack)) 0 :=
  ⟨(C14_copy_assign (fun _ => ⟨[1, 2, 3]⟩) 0 0).2.2, by
    rw [(C14_copy_assign (fun _ => ⟨[1, 2, 3]⟩) 0 0).2.2]
    decide⟩

/-! ## Lemmas on sums of bits -/

theorem sum_testBit (p n : Nat) :
    (∑ i ∈ Finset.range n, if p.testBit i = true then 2 ^ i else 0) = p % 2 ^ n := by
  induction n with
  | zero => simp [Nat.mod_one]
  | succ n ih =>
    rw [Finset.sum_range_succ, ih, Nat.mod_pow_succ, Nat.testBit_to_div_mod]
    by_cases hb : p / 2 ^ n % 2 = 1
    · simp [hb]
    · have h0 : p / 2 ^ n % 2 = 0 := by omega
      simp [h0]

theorem sum_testBit_scaled (p n : Nat) (d : Int) :
    (∑ i ∈ Finset.range n, if p.testBit i = true then (2 : ℚ) ^ ((i : Int) + d) else 0) =
      ((p % 2 ^ n : Nat) : ℚ) * 2 ^ d := by
  have h2 : (2 : ℚ) ≠ 0 := by norm_num
  rw [← sum_testBit p n]
  push_cast
  rw [Finset.sum_mul]
  apply Finset.sum_congr rfl
  intro i _
  by_cases hb : p.testBit i = true
  · simp only [hb, if_true]
    rw [zpow_add₀ h2, zpow_natCast]
  · simp only [hb, if_false]
    simp

/-- C15: for every 32-bit pattern with exponent field 0 and mantissa field `M ≠ 0`, the
magnitude computed by `asFloat_IEEE754` is the sum over the set mantissa bits `i` of
`2^(i-149)`, which is `M * 2^(-149)`, and the result has that magnitude with the sign of
bit 31. -/
theorem C15_subnormal (p : Nat) (_hp : p < 2 ^ 32) (hE : p / 2 ^ 23 % 2 ^ 8 = 0)
    (_hM : p % 2 ^ 23 ≠ 0) :
    (charPack.ofPtr (some (objectBytes p)) 32 >>= fun cp => cp.asFloat_IEEE754) =
        .ok (.finite (p.testBit 31)
          (∑ i ∈ Finset.range 23,
            if p.testBit i = true then (2 : ℚ) ^ ((i : Int) + (-149)) else 0)) ∧
      (∑ i ∈ Finset.range 23, if p.testBit i = true then (2 : ℚ) ^ ((i : Int) + (-149)) else 0) =
        ((p % 2 ^ 23 : Nat) : ℚ) * 2 ^ (-149 : Int) := by
  have hsum := sum_testBit_scaled p 23 (-149)
  refine ⟨?_, hsum⟩
  rw [decode32, binary32Value_subnormal p hE, hsum]

/-- Witness of C15: the pattern 0x80000003 is subnormal with mantissa 3 and bit 31 set;
it decodes to `-(3 * 2^(-149))`. -/
theorem C15_subnormal_witness :
    (0x80000003 < 2 ^ 32 ∧ 0x80000003 / 2 ^ 23 % 2 ^ 8 = 0 ∧ 0x80000003 % 2 ^ 23 ≠ 0) ∧
      (Nat.testBit 0x80000003 31 = true ∧ 0x80000003 % 2 ^ 23 = 3) ∧
      ((charPack.ofPtr (some (objectBytes 0x80000003)) 32 >>= fun cp => cp.asFloat_IEEE754) =
          .ok (.finite (Nat.testBit 0x80000003 31)
            (∑ i ∈ Finset.range 23,
              if Nat.testBit 0x80000003 i = true then (2 : ℚ) ^ ((i : Int) + (-149)) else 0)) ∧
        (∑ i ∈ Finset.range 23,
            if Nat.testBit 0x80000003 i = true then (2 : ℚ) ^ ((i : Int) + (-149)) else 0) =
          ((0x80000003 % 2 ^ 23 : Nat) : ℚ) * 2 ^ (-149 : Int)) :=
  ⟨⟨by decide, by decide, by decide⟩, ⟨by decide, by decide⟩,
    C15_subnormal 0x80000003 (by decide) (by decide) (by decide)⟩

/-! ## Lemmas on the sign bit -/

theorem xor_sign_testBit (p i : Nat) :
    (p ^^^ 2 ^ 31).testBit i = (p.testBit i ^^ decide (31 = i)) := by
  rw [Nat.testBit_xor, Nat.testBit_two_pow]

theorem xor_sign_mod (p : Nat) : (p ^^^ 2 ^ 31) % 2 ^ 31 = p % 2 ^ 31 := by
  apply Nat.eq_of_testBit_eq
  intro i
  rw [Nat.testBit_mod_two_pow, Nat.testBit_mod_two_pow, xor_sign_testBit]
  by_cases hi : i < 31
  · have : ¬ 31 = i := by omega
    simp [hi, this]
  · simp [hi]

theorem xor_sign_fields (p : Nat) :
    (p ^^^ 2 ^ 31) / 2 ^ 23 % 2 ^ 8 = p / 2 ^ 23 % 2 ^ 8 ∧
      (p ^^^ 2 ^ 31) % 2 ^ 23 = p % 2 ^ 23 := by
  have h := xor_sign_mod p
  have e1 : ∀ x : Nat, x / 2 ^ 23 % 2 ^ 8 = x % 2 ^ 31 / 2 ^ 23 := by
    intro x; omega
  have e2 : ∀ x : Nat, x % 2 ^ 23 = x % 2 ^ 31 % 2 ^ 23 := by
    intro x; omega
  constructor
  · rw [e1 (p ^^^ 2 ^ 31), e1 p, h]
  · rw [e2 (p ^^^ 2 ^ 31), e2 p, h]

theorem binary32Value_xor_sign (p : Nat) :
    binary32Value (p ^^^ 2 ^ 31) = (binary32Value p).neg := by
  obtain ⟨hE, hM⟩ := xor_sign_fields p
  have hs : (p ^^^ 2 ^ 31).testBit 31 = !p.testBit 31 := by
    rw [xor_sign_testBit]
    simp
  unfold binary32Value
  simp only [hE, hM, hs]
  by_cases h255 : p / 2 ^ 23 % 2 ^ 8 = 255
  · by_cases hM0 : p % 2 ^ 23 = 0
    · simp only [h255, hM0, if_true, FloatVal.neg]
    · simp only [h255, hM0, if_true, if_false, FloatVal.neg]
  · by_cases h0 : p / 2 ^ 23 % 2 ^ 8 = 0
    · simp only [h0, (by decide : ¬ (0 : Nat) = 255), if_true, if_false, FloatVal.neg]
    · simp only [h255, h0, if_false, FloatVal.neg]

/-- C17: for every 32-bit pattern `p` that is not a NaN pattern, `asFloat_IEEE754` of
`p xor 0x80000000` is the negation of `asFloat_IEEE754` of `p`; the exponent that the
decoder assembles from bytes 3 and 2 is the same for both patterns, and so are the
exponent and mantissa fields. -/
theorem C17_sign_symmetry (p : Nat) (_hp : p < 2 ^ 32)
    (hnan : ¬ (p / 2 ^ 23 % 2 ^ 8 = 255 ∧ p % 2 ^ 23 ≠ 0)) :
    (∃ r, (charPack.ofPtr (some (objectBytes p)) 32 >>= fun cp => cp.asFloat_IEEE754) =
          .ok r ∧ (∀ s, r ≠ .nan s) ∧
        (charPack.ofPtr (some (objectBytes (p ^^^ 0x80000000))) 32 >>=
          fun cp => cp.asFloat_IEEE754) = .ok r.neg) ∧
      (((objectBytes (p ^^^ 0x80000000) 3).val <<< 1) % 256 +
          (if (objectBytes (p ^^^ 0x80000000) 2).val &&& 128 ≠ 0 then 1 else 0)) % 256 =
        (((objectBytes p 3).val <<< 1) % 256 +
          (if (objectBytes p 2).val &&& 128 ≠ 0 then 1 else 0)) % 256 ∧
      (p ^^^ 0x80000000) / 2 ^ 23 % 2 ^ 8 = p / 2 ^ 23 % 2 ^ 8 ∧
      (p ^^^ 0x80000000) % 2 ^ 23 = p % 2 ^ 23 := by
  have h31 : (0x80000000 : Nat) = 2 ^ 31 := by decide
  rw [h31]
  obtain ⟨hE, hM⟩ := xor_sign_fields p
  refine ⟨⟨_, decode32 p, binary32Value_ne_nan p hnan, ?_⟩, ?_, hE, hM⟩
  · rw [decode32, binary32Value_xor_sign]
  · rw [float_exponent, float_exponent, hE]

/-- Witness of C17: the pattern 0x3FC00000 (1.5) is not a NaN pattern; flipping bit 31
gives 0xBFC00000, which decodes to the negation. -/
theorem C17_sign_symmetry_witness :
    (0x3FC00000 < 2 ^ 32 ∧ ¬ (0x3FC00000 / 2 ^ 23 % 2 ^ 8 = 255 ∧ 0x3FC00000 % 2 ^ 23 ≠ 0)) ∧
      0x3FC00000 ^^^ 0x80000000 = 0xBFC00000 ∧
      ∃ r, (charPack.ofPtr (some (objectBytes 0x3FC00000)) 32 >>=
            fun cp => cp.asFloat_IEEE754) = .ok r ∧ (∀ s, r ≠ .nan s) ∧
        (charPack.ofPtr (some (objectBytes (0x3FC00000 ^^^ 0x80000000))) 32 >>=
          fun cp => cp.asFloat_IEEE754) = .ok r.neg :=
  ⟨⟨by decide, by decide⟩, by decide,
    (C17_sign_symmetry 0x3FC00000 (by decide) (by decide)).1⟩

/-! ## Lemmas on bit fields -/

theorem bitVal_eq (cp : charPack) (pos : Nat) (h : pos < cp.bits) :
    cp.bitVal pos = (cp.pattern.testBit pos).toNat := by
  unfold charPack.bitVal
  rw [getBit_pattern cp pos h]
  cases cp.pattern.testBit pos <;> rfl

theorem sum_field (P s n : Nat) :
    (∑ k ∈ Finset.range n, (P.testBit (s + k)).toNat * 2 ^ k) = P / 2 ^ s % 2 ^ n := by
  induction n with
  | zero => simp [Nat.mod_one]
  | succ n ih =>
    rw [Finset.sum_range_succ, ih, Nat.mod_pow_succ, Nat.toNat_testBit, pow_add,
      Nat.div_div_eq_div_mul]
    ring

theorem sum_bitVal (cp : charPack) (s n : Nat) (h : s + n ≤ cp.bits) :
    (∑ k ∈ Finset.range n, cp.bitVal (s + k) * 2 ^ k) = cp.pattern / 2 ^ s % 2 ^ n := by
  rw [← sum_field]
  apply Finset.sum_congr rfl
  intro k hk
  have hk2 := Finset.mem_range.mp hk
  rw [bitVal_eq cp (s + k) (by omega)]

theorem binary64Value_normal (p : Nat) (h0 : p / 2 ^ 52 % 2 ^ 11 ≠ 0)
    (h2047 : p / 2 ^ 52 % 2 ^ 11 ≠ 2047) :
    binary64Value p = .finite (p.testBit 63)
      (((2 ^ 52 + p % 2 ^ 52 : Nat) : ℚ) * 2 ^ (((p / 2 ^ 52 % 2 ^ 11 : Nat) : Int) - 1075)) := by
  unfold binary64Value
  simp only [h0, h2047, if_false]

theorem normal_magnitude (E M : Nat) :
    ((2 ^ 52 + M : Nat) : ℚ) * 2 ^ ((E : Int) - 1075) =
      (2 : ℚ) ^ ((E : Int) - 1023) * (1 + (M : ℚ) / 2 ^ 52) := by
  have h2 : (2 : ℚ) ≠ 0 := by norm_num
  have he : (E : Int) - 1075 = ((E : Int) - 1023) + (-(52 : Nat) : Int) := by omega
  rw [he, zpow_add₀ h2, zpow_neg, zpow_natCast]
  push_cast
  field_simp
  ring

/-- C16: for every 64-bit sequence, the exponent `E` that `asDouble_IEEE754` assembles
from the two top bytes, `(byte[7] & 127) << 4` plus `(byte[6] & 240) >> 4`, equals
`Σ_{k<11} getBit(52+k) * 2^k`, bits 52..62 as an unsigned integer (so neither the sign
bit nor mantissa bits 48..51 enter it); and when `0 < E < 2047` the magnitude returned is
`2^(E-1023) * (1 + M/2^52)` with `M` the bits 0..51. -/
theorem C16_double_exponent (cp : charPack) (h : cp.bits = 64) :
    ∃ top next : Byte, ∃ E M : Nat,
      cp.index (cp.size - 1) = .ok top ∧ cp.index (cp.size - 2) = .ok next ∧
      E = (top.val &&& 127) * 2 ^ 4 + ((next.val &&& 240) >>> 4) ∧
      E = ∑ k ∈ Finset.range 11, cp.bitVal (52 + k) * 2 ^ k ∧
      M = ∑ i ∈ Finset.range 52, cp.bitVal i * 2 ^ i ∧
      (0 < E → E < 2047 → ∃ s, cp.asDouble_IEEE754 =
        .ok (.finite s ((2 : ℚ) ^ ((E : Int) - 1023) * (1 + (M : ℚ) / 2 ^ 52)))) := by
  have hs : cp.size = 8 := by unfold charPack.bits at h; omega
  have hE := sum_bitVal cp 52 11 (by omega)
  have hM := sum_bitVal cp 0 52 (by omega)
  simp only [pow_zero, Nat.div_one, Nat.zero_add] at hM
  refine ⟨objectBytes cp.pattern 7, objectBytes cp.pattern 6, cp.pattern / 2 ^ 52 % 2 ^ 11,
    cp.pattern % 2 ^ 52, ?_, ?_, ?_, hE.symm, hM.symm, ?_⟩
  · rw [hs]; exact index_pattern cp 7 (by omega)
  · rw [hs]; exact index_pattern cp 6 (by omega)
  · exact (double_exponent cp.pattern).symm
  · intro h0 h2047
    refine ⟨cp.pattern.testBit 63, ?_⟩
    rw [asDouble_of_bits cp h, binary64Value_normal cp.pattern (by omega) (by omega),
      normal_magnitude]

/-- Witness of C16: the eight bytes of 0x3FF8000000000000 (1.5) have exponent 1023 and
are decoded. -/
theorem C16_double_exponent_witness :
    (charPack.mk [0, 0, 0, 0, 0, 0, 0xF8, 0x3F]).bits = 64 ∧
      ((0x3F &&& 127) * 2 ^ 4 + ((0xF8 &&& 240) >>> 4) = 1023) ∧
      ∃ top next : Byte, ∃ E M : Nat,
        (charPack.mk [0, 0, 0, 0, 0, 0, 0xF8, 0x3F]).index
          ((charPack.mk [0, 0, 0, 0, 0, 0, 0xF8, 0x3F]).size - 1) = .ok top ∧
        (charPack.mk [0, 0, 0, 0, 0, 0, 0xF8, 0x3F]).index
          ((charPack.mk [0, 0, 0, 0, 0, 0, 0xF8, 0x3F]).size - 2) = .ok next ∧
        E = (top.val &&& 127) * 2 ^ 4 + ((next.val &&& 240) >>> 4) ∧
        E = ∑ k ∈ Finset.range 11,
          (charPack.mk [0, 0, 0, 0, 0, 0, 0xF8, 0x3F]).bitVal (52 + k) * 2 ^ k ∧
        M = ∑ i ∈ Finset.range 52,
          (charPack.mk [0, 0, 0, 0, 0, 0, 0xF8, 0x3F]).bitVal i * 2 ^ i ∧
        (0 < E → E < 2047 → ∃ s,
          (charPack.mk [0, 0, 0, 0, 0, 0, 0xF8, 0x3F]).asDouble_IEEE754 =
            .ok (.finite s ((2 : ℚ) ^ ((E : Int) - 1023) * (1 + (M : ℚ) / 2 ^ 52)))) :=
  ⟨by decide, by decide,
    C16_double_exponent (charPack.mk [0, 0, 0, 0, 0, 0, 0xF8, 0x3F]) (by decide)⟩

/-! ## Lemmas on the order of decoded values -/

theorem binary32Value_scaled (p : Nat) (hE : p / 2 ^ 23 % 2 ^ 8 ≠ 255) :
    binary32Value p =
      .finite (p.testBit 31) ((binary32Scaled p : ℚ) * 2 ^ (-149 : Int)) := by
  by_cases h0 : p / 2 ^ 23 % 2 ^ 8 = 0
  · rw [binary32Value_subnormal p h0]
    simp only [binary32Scaled, h0, if_true]
  · rw [binary32Value_normal p h0 hE]
    simp only [binary32Scaled, h0, if_false]
    congr 1
    have h2 : (2 : ℚ) ≠ 0 := by norm_num
    have he : ((p / 2 ^ 23 % 2 ^ 8 : Nat) : Int) - 150 =
        ((p / 2 ^ 23 % 2 ^ 8 - 1 : Nat) : Int) + (-149) := by omega
    rw [he, zpow_add₀ h2, zpow_natCast]
    push_cast
    ring

theorem binary32Scaled_lt (p q : Nat) (hpq : p < q) (hq : q < 0x7F800000) :
    binary32Scaled p < binary32Scaled q := by
  have hMp : p % 2 ^ 23 < 2 ^ 23 := Nat.mod_lt _ (by decide)
  have hMq : q % 2 ^ 23 < 2 ^ 23 := Nat.mod_lt _ (by decide)
  have hle : p / 2 ^ 23 % 2 ^ 8 ≤ q / 2 ^ 23 % 2 ^ 8 := by omega
  unfold binary32Scaled
  simp only []
  by_cases heq : p / 2 ^ 23 % 2 ^ 8 = q / 2 ^ 23 % 2 ^ 8
  · have hM : p % 2 ^ 23 < q % 2 ^ 23 := by omega
    rw [heq]
    by_cases h0 : q / 2 ^ 23 % 2 ^ 8 = 0
    · simp only [h0, if_true]
      exact hM
    · simp only [h0, if_false]
      exact Nat.mul_lt_mul_of_pos_right (by omega) (Nat.two_pow_pos _)
  · have hlt : p / 2 ^ 23 % 2 ^ 8 < q / 2 ^ 23 % 2 ^ 8 := by omega
    have hq0 : ¬ q / 2 ^ 23 % 2 ^ 8 = 0 := by omega
    simp only [hq0, if_false]
    have hlow : 2 ^ 23 * 2 ^ (q / 2 ^ 23 % 2 ^ 8 - 1) ≤
        (2 ^ 23 + q % 2 ^ 23) * 2 ^ (q / 2 ^ 23 % 2 ^ 8 - 1) :=
      Nat.mul_le_mul_right _ (by omega)
    have hpow : 2 ^ (p / 2 ^ 23 % 2 ^ 8) ≤ 2 ^ (q / 2 ^ 23 % 2 ^ 8 - 1) :=
      Nat.pow_le_pow_right (by decide) (by omega)
    have hmid : 2 ^ 23 * 2 ^ (p / 2 ^ 23 % 2 ^ 8) ≤ 2 ^ 23 * 2 ^ (q / 2 ^ 23 % 2 ^ 8 - 1) :=
      Nat.mul_le_mul_left _ hpow
    refine lt_of_lt_of_le ?_ (le_trans hmid hlow)
    by_cases h0 : p / 2 ^ 23 % 2 ^ 8 = 0
    · simp only [h0, if_true, pow_zero, Nat.mul_one]
      exact hMp
    · simp only [h0, if_false]
      have hsplit : 2 ^ (p / 2 ^ 23 % 2 ^ 8) = 2 * 2 ^ (p / 2 ^ 23 % 2 ^ 8 - 1) := by
        rw [← pow_succ']
        congr 1
        omega
      rw [hsplit]
      have hpos : 0 < 2 ^ (p / 2 ^ 23 % 2 ^ 8 - 1) := Nat.two_pow_pos _
      calc (2 ^ 23 + p % 2 ^ 23) * 2 ^ (p / 2 ^ 23 % 2 ^ 8 - 1)
          < (2 ^ 23 * 2) * 2 ^ (p / 2 ^ 23 % 2 ^ 8 - 1) :=
            Nat.mul_lt_mul_of_pos_right (by omega) hpos
        _ = 2 ^ 23 * (2 * 2 ^ (p / 2 ^ 23 % 2 ^ 8 - 1)) := by ring

theorem lt_of_scaled (a b : Nat) (h : a < b) :
    FloatVal.lt (.finite false ((a : ℚ) * 2 ^ (-149 : Int)))
      (.finite false ((b : ℚ) * 2 ^ (-149 : Int))) = true := by
  have hpos : (0 : ℚ) < 2 ^ (-149 : Int) := zpow_pos (by norm_num) _
  have hab : (a : ℚ) < (b : ℚ) := by exact_mod_cast h
  simp only [FloatVal.lt, FloatFormat.signedValue, Bool.false_eq_true, if_false,
    decide_eq_true_eq]
  exact mul_lt_mul_of_pos_right hab hpos

theorem lt_irrefl_val (a b : FloatVal) (h : a.lt b = true) : a ≠ b := by
  intro hab
  subst hab
  cases a with
  | finite s x => simp [FloatVal.lt] at h
  | inf s => cases s <;> simp [FloatVal.lt] at h
  | nan s => simp [FloatVal.lt] at h

/-- C18: for every two 32-bit patterns `p < q` with bit 31 clear and `q ≤ 0x7F800000`,
`asFloat_IEEE754(p) < asFloat_IEEE754(q)`, where `+inf` is above every finite value; so
the two results differ. -/
theorem C18_monotone (p q : Nat) (hpq : p < q) (hq : q ≤ 0x7F800000) :
    ∃ a b, (charPack.ofPtr (some (objectBytes p)) 32 >>= fun cp => cp.asFloat_IEEE754) =
        .ok a ∧
      (charPack.ofPtr (some (objectBytes q)) 32 >>= fun cp => cp.asFloat_IEEE754) = .ok b ∧
      a.lt b = true ∧ a ≠ b := by
  have hp31 : p.testBit 31 = false := Nat.testBit_lt_two_pow (by omega)
  have hq31 : q.testBit 31 = false := Nat.testBit_lt_two_pow (by omega)
  have hEp : p / 2 ^ 23 % 2 ^ 8 ≠ 255 := by omega
  have hlt : (binary32Value p).lt (binary32Value q) = true := by
    rw [binary32Value_scaled p hEp, hp31]
    by_cases hqinf : q = 0x7F800000
    · subst hqinf
      rw [binary32Value_special _ (by decide)]
      have hM : 0x7F800000 % 2 ^ 23 = 0 := by decide
      rw [if_pos hM, hq31]
      rfl
    · have hEq : q / 2 ^ 23 % 2 ^ 8 ≠ 255 := by omega
      rw [binary32Value_scaled q hEq, hq31]
      exact lt_of_scaled _ _ (binary32Scaled_lt p q hpq (by omega))
  exact ⟨_, _, decode32 p, decode32 q, hlt, lt_irrefl_val _ _ hlt⟩

/-- Witness of C18: the largest subnormal pattern 0x007FFFFF decodes below the smallest
normal pattern 0x00800000. -/
theorem C18_monotone_witness :
    (0x007FFFFF < 0x00800000 ∧ 0x00800000 ≤ 0x7F800000) ∧
      ∃ a b, (charPack.ofPtr (some (objectBytes 0x007FFFFF)) 32 >>=
          fun cp => cp.asFloat_IEEE754) = .ok a ∧
        (charPack.ofPtr (some (objectBytes 0x00800000)) 32 >>=
          fun cp => cp.asFloat_IEEE754) = .ok b ∧
        a.lt b = true ∧ a ≠ b :=
  ⟨⟨by decide, by decide⟩, C18_monotone 0x007FFFFF 0x00800000 (by decide) (by decide)⟩

/-! ## Lemmas on the accumulator -/

theorem representable_of_round (f : FloatFormat) (neg s : Bool) (q x : ℚ)
    (h : f.round neg q = .ok (.finite s x)) : f.representable q = true := by
  unfold FloatFormat.round at h
  by_cases ho : f.overflow ≤ q
  · rw [if_pos ho] at h
    cases h
  · rw [if_neg ho] at h
    by_cases hr : f.representable q = true
    · exact hr
    · rw [if_neg hr] at h
      cases h

theorem representable32_dyadic (K : Nat) (d : Int) (hK : K < 2 ^ 24)
    (hd1 : -149 ≤ d) (hd2 : d ≤ 104) :
    binary32.representable ((K : ℚ) * 2 ^ d) = true :=
  representable_of_round binary32 false false _ _
    (round_dyadic binary32 false K d (by simpa [binary32] using hK)
      (by simp only [binary32]; omega) (by simp only [binary32]; omega))

theorem leading_term (E : Nat) (h1 : 0 < E) (h2 : E < 255) :
    (pow2 ((E : Int) - 127) >>= binary32.convert) =
      .ok (.finite false (((2 ^ 23 : Nat) : ℚ) * 2 ^ ((E : Int) - 127 - 23))) := by
  have h2' : (2 : ℚ) ≠ 0 := by norm_num
  have hval : (2 : ℚ) ^ ((E : Int) - 127) =
      ((2 ^ 23 : Nat) : ℚ) * 2 ^ ((E : Int) - 127 - 23) := by
    have he : (E : Int) - 127 = ((23 : Nat) : Int) + ((E : Int) - 127 - 23) := by omega
    conv_lhs => rw [he]
    rw [zpow_add₀ h2', zpow_natCast]
    push_cast
    rfl
  have hp := pow2_exact ((E : Int) - 127) (by omega) (by omega)
  have hr := round_dyadic binary32 false (2 ^ 23) ((E : Int) - 127 - 23) (by decide)
    (by simp only [binary32]; omega) (by simp only [binary32]; omega)
  simp only [hp, bind, Except.bind, FloatFormat.convert, hval, hr]

/-- C19: for every 32-bit pattern with exponent field `E < 255`, every value of the
accumulator `res` of `asFloat_IEEE754`, the initial one (`n = 0`: 0 or `2^(E-127)`) and
the one after each of the first `n` iterations of the mantissa loop, is `k * 2^(e-23)`
for a natural number `k < 2^24`, where `e = -126` if `E = 0` and `e = E - 127`
otherwise; each is a value of binary32, and the loop returns it without rounding. -/
theorem C19_exact_accumulation (p : Nat) (_hp : p < 2 ^ 32) (hE : p / 2 ^ 23 % 2 ^ 8 < 255) :
    ∃ (cp : charPack) (e : Int) (r0 : FloatVal),
      charPack.ofPtr (some (objectBytes p)) 32 = .ok cp ∧
      e = (if p / 2 ^ 23 % 2 ^ 8 = 0 then -126 else ((p / 2 ^ 23 % 2 ^ 8 : Nat) : Int) - 127) ∧
      (if p / 2 ^ 23 % 2 ^ 8 = 0 then (.ok (.finite false 0) : Except Error FloatVal)
        else pow2 (((p / 2 ^ 23 % 2 ^ 8 : Nat) : Int) - 127) >>= binary32.convert) = .ok r0 ∧
      ∀ n, n ≤ 23 → ∃ k c : Nat, k < 2 ^ 24 ∧
        charPack.mantissaLoop accFloat cp (e - 23) (r0, 0) n =
          .ok (.finite false ((k : ℚ) * 2 ^ (e - 23)), c) ∧
        binary32.representable ((k : ℚ) * 2 ^ (e - 23)) = true := by
  have hcap := ofPtr_objectBytes p 4
  simp only [Nat.reduceMul] at hcap
  have hbit : ∀ i, i < 23 →
      (charPack.mk ((List.range 4).map (objectBytes p))).getBit i = .ok (p.testBit i) :=
    fun i hi => capture_getBit p 4 i (by omega)
  by_cases h0 : p / 2 ^ 23 % 2 ^ 8 = 0
  · refine ⟨_, -126, .finite false 0, hcap, by simp only [h0, if_true],
      by simp only [h0, if_true], ?_⟩
    intro n hn
    have hd : ((-126 : Int) - 23) = -149 := by decide
    rw [hd]
    obtain ⟨c, hc, _⟩ := mantissaLoop_finite accFloat
      (charPack.mk ((List.range 4).map (objectBytes p))) p (-149) 0 23 hbit
      (fun i K hi _ hK => accFloat_finite K i _ (by
        have : (2 : Nat) ^ i ≤ 2 ^ 22 := Nat.pow_le_pow_right (by decide) (by omega)
        omega) (by omega) (by omega))
      n hn
    have hk : 0 + p % 2 ^ n < 2 ^ 24 := by
      have h1 : p % 2 ^ n < 2 ^ n := Nat.mod_lt _ (Nat.two_pow_pos n)
      have h2 : (2 : Nat) ^ n ≤ 2 ^ 23 := Nat.pow_le_pow_right (by decide) hn
      omega
    refine ⟨0 + p % 2 ^ n, c, hk, ?_, representable32_dyadic _ _ hk (by omega) (by omega)⟩
    rw [← hc]
    simp
  · have h1 : 0 < p / 2 ^ 23 % 2 ^ 8 := by omega
    refine ⟨_, ((p / 2 ^ 23 % 2 ^ 8 : Nat) : Int) - 127, _, hcap, by simp only [h0, if_false],
      by simp only [h0, if_false]; exact leading_term _ h1 hE, ?_⟩
    intro n hn
    obtain ⟨c, hc, _⟩ := mantissaLoop_finite accFloat
      (charPack.mk ((List.range 4).map (objectBytes p))) p
      (((p / 2 ^ 23 % 2 ^ 8 : Nat) : Int) - 127 - 23) (2 ^ 23) 23 hbit
      (fun i K hi _ hK => accFloat_finite K i _ (by
        have : (2 : Nat) ^ i ≤ 2 ^ 22 := Nat.pow_le_pow_right (by decide) (by omega)
        omega) (by omega) (by omega))
      n hn
    have hk : 2 ^ 23 + p % 2 ^ n < 2 ^ 24 := by
      have h1 : p % 2 ^ n < 2 ^ n := Nat.mod_lt _ (Nat.two_pow_pos n)
      have h2 : (2 : Nat) ^ n ≤ 2 ^ 23 := Nat.pow_le_pow_right (by decide) hn
      omega
    exact ⟨2 ^ 23 + p % 2 ^ n, c, hk, hc,
      representable32_dyadic _ _ hk (by omega) (by omega)⟩

/-- Witness of C19: the pattern 0x3FC00000 (1.5) has exponent field 127 below 255; its
accumulator starts at `2^23 * 2^(-23)` and stays of the stated form. -/
theorem C19_exact_accumulation_witness :
    (0x3FC00000 < 2 ^ 32 ∧ 0x3FC00000 / 2 ^ 23 % 2 ^ 8 < 255) ∧
      ∃ (cp : charPack) (e : Int) (r0 : FloatVal),
        charPack.ofPtr (some (objectBytes 0x3FC00000)) 32 = .ok cp ∧
        e = (if 0x3FC00000 / 2 ^ 23 % 2 ^ 8 = 0 then -126
          else ((0x3FC00000 / 2 ^ 23 % 2 ^ 8 : Nat) : Int) - 127) ∧
        (if 0x3FC00000 / 2 ^ 23 % 2 ^ 8 = 0 then (.ok (.finite false 0) : Except Error FloatVal)
          else pow2 (((0x3FC00000 / 2 ^ 23 % 2 ^ 8 : Nat) : Int) - 127) >>= binary32.convert) =
            .ok r0 ∧
        ∀ n, n ≤ 23 → ∃ k c : Nat, k < 2 ^ 24 ∧
          charPack.mantissaLoop accFloat cp (e - 23) (r0, 0) n =
            .ok (.finite false ((k : ℚ) * 2 ^ (e - 23)), c) ∧
          binary32.representable ((k : ℚ) * 2 ^ (e - 23)) = true :=
  ⟨⟨by decide, by decide⟩, C19_exact_accumulation 0x3FC00000 (by decide) (by decide)⟩

/-! ## Lemmas on short sequences -/

theorem sum_bytes_lt (l : List Byte) (n : Nat) :
    (∑ i ∈ Finset.range n, (l.getD i 0).val * 256 ^ i) < 256 ^ n := by
  induction n with
  | zero => simp
  | succ n ih =>
    have hb : (l.getD n 0).val < 256 := (l.getD n 0).isLt
    have hmul : (l.getD n 0).val * 256 ^ n ≤ 255 * 256 ^ n :=
      Nat.mul_le_mul_right _ (by omega)
    rw [Finset.sum_range_succ, pow_succ]
    omega

/-- C20: for every integer type `T` of width `W` and every byte sequence with
`bits() < W`, the value `r` returned by `asInt<T>` satisfies `0 ≤ r < 2^bits()`: the top
stored bit is not sign-extended; so whenever `asInt<T>` returns a negative value,
`bits() = W`. -/
theorem C20_zero_extension (T : IntType) (cp : charPack) :
    (cp.bits < T.width → ∃ r, cp.asInt T = .ok r ∧ 0 ≤ r ∧ r < 2 ^ cp.bits) ∧
      (∀ r, cp.asInt T = .ok r → r < 0 → cp.bits = T.width) := by
  have hfirst : cp.bits < T.width → ∃ r, cp.asInt T = .ok r ∧ 0 ≤ r ∧ r < 2 ^ cp.bits := by
    intro h
    have hS := sum_bytes_lt cp.bytes cp.size
    have h256 : 256 ^ cp.size = 2 ^ cp.bits := by
      unfold charPack.bits
      rw [Nat.mul_comm, pow_mul]
      norm_num
    rw [h256] at hS
    have hle : 2 ^ cp.bits ≤ 2 ^ (T.width - 1) :=
      Nat.pow_le_pow_right (by decide) (by omega)
    have hlt : 2 ^ (T.width - 1) < 2 ^ T.width :=
      Nat.pow_lt_pow_right (by decide) (by omega)
    have hmod : (∑ i ∈ Finset.range cp.size, (cp.bytes.getD i 0).val * 256 ^ i) % 2 ^ T.width =
        ∑ i ∈ Finset.range cp.size, (cp.bytes.getD i 0).val * 256 ^ i :=
      Nat.mod_eq_of_lt (by omega)
    refine ⟨_, asInt_eq T cp (by omega), ?_, ?_⟩
    · rw [hmod]
      unfold IntType.ofPattern
      rw [if_neg (by intro hc; have := hc.2; omega)]
      exact Int.natCast_nonneg _
    · rw [hmod]
      unfold IntType.ofPattern
      rw [if_neg (by intro hc; have := hc.2; omega)]
      exact_mod_cast hS
  refine ⟨hfirst, ?_⟩
  intro r hr hneg
  by_contra hne
  have hle : cp.bits ≤ T.width := by
    by_contra hgt
    have h2 : cp.bits > T.sizeof * 8 := by
      unfold IntType.width at hgt
      omega
    simp [charPack.asInt, h2] at hr
  obtain ⟨r2, hr2, h0, _⟩ := hfirst (by omega)
  rw [hr] at hr2
  cases hr2
  omega

/-- Witness of C20: the single byte 0xFF decoded as a signed 16-bit integer is 255, not
-1. -/
theorem C20_zero_extension_witness :
    (charPack.mk [0xFF]).asInt .int16_t = .ok 255 ∧
      ∃ r, (charPack.mk [0xFF]).asInt .int16_t = .ok r ∧ 0 ≤ r ∧
        r < 2 ^ (charPack.mk [0xFF]).bits :=
  ⟨by decide, (C20_zero_extension .int16_t (charPack.mk [0xFF])).1 (by decide)⟩

end bitop
